import Mathlib

/-!
Verification development for the OnionPress local proxy server
(`src/onion_proxy.py`).  The Python source is shallowly embedded:
request targets, header values and HTML bodies are modelled as
`List Char`; the response cache mirrors the `collections.OrderedDict`
based `ProxyCache` as an ordered association list together with the
running byte counter; the regular-expression based HTML rewrites are
modelled by a small backtracking matcher specialised to the exact
patterns compiled in the source.
-/

set_option autoImplicit false

namespace OnionProxy

/-- Texts and byte strings from the Python source are modelled as lists of
characters. -/
abbrev Str := List Char

/-- Python `str.lower` restricted to ASCII letters (all hosts and header
values handled by the proxy are ASCII). -/
def lowerC (c : Char) : Char :=
  if 'A' ≤ c ∧ c ≤ 'Z' then Char.ofNat (c.toNat + 32) else c

/-- Lower-case a whole string, as `str.lower()` does. -/
def lowerS (s : Str) : Str := s.map lowerC

/-- Boolean string equality on the character-list model. -/
def strEqL : Str → Str → Bool
  | [], [] => true
  | a :: as, b :: bs => if a = b then strEqL as bs else false
  | _, _ => false

/-- Python `str.startswith`: `startsWithL s p` is true when `p` is a prefix
of `s`. -/
def startsWithL : Str → Str → Bool
  | _, [] => true
  | [], _ :: _ => false
  | c :: cs, p :: ps => if c = p then startsWithL cs ps else false

/-- Python `str.endswith`: true when the second argument is a suffix of the
first. -/
def endsWithL (s suf : Str) : Bool :=
  strEqL (s.drop (s.length - suf.length)) suf && decide (suf.length ≤ s.length)

/-- Python substring membership `sub in s`. -/
def hasSubL : Str → Str → Bool
  | s, sub =>
    startsWithL s sub ||
      (match s with
       | [] => false
       | _ :: t => hasSubL t sub)

/-- The text strictly after the first occurrence of `sub`, if `sub` occurs
(`s.split(sub)[1:]` joined back, first component).  `sub` is assumed
non-empty, as everywhere in the source. -/
def afterFirstL (sub : Str) : Str → Option Str
  | [] => if startsWithL [] sub then some [] else none
  | c :: t =>
    if startsWithL (c :: t) sub then some ((c :: t).drop sub.length)
    else afterFirstL sub t

/-- The prefix of the string up to (excluding) the first occurrence of
`sub`; the whole string when `sub` does not occur. -/
def beforeFirstL (sub : Str) : Str → Str
  | [] => []
  | c :: t =>
    if startsWithL (c :: t) sub then []
    else c :: beforeFirstL sub t

/-- ASCII whitespace recognised by Python `str.strip` and `int`. -/
def isWsp (c : Char) : Bool :=
  c = ' ' ∨ c = Char.ofNat 9 ∨ c = Char.ofNat 10 ∨ c = Char.ofNat 13 ∨
    c = Char.ofNat 11 ∨ c = Char.ofNat 12

/-- Python `str.strip()` on ASCII whitespace. -/
def stripL (s : Str) : Str :=
  ((s.dropWhile isWsp).reverse.dropWhile isWsp).reverse

/-- Decimal digit test. -/
def isDigitC (c : Char) : Bool := '0' ≤ c ∧ c ≤ '9'

/-- Value of one decimal digit. -/
def digitValC (c : Char) : Nat := c.toNat - 48

/-- Read a non-empty all-digit string as a natural number, as the digit
part of Python `int` does. -/
def decDigits : Str → Option Nat
  | [] => none
  | [c] => if isDigitC c then some (digitValC c) else none
  | c :: t =>
    if isDigitC c then
      match decDigits t with
      | some n => some (digitValC c * 10 ^ t.length + n)
      | none => none
    else none

/-- Python `int(s)` on an already stripped string: an optional sign
followed by decimal digits.  (Underscore digit grouping accepted by
CPython is not modelled; no input in this development uses it.) -/
def parseIntL (s : Str) : Option Int :=
  match s with
  | '+' :: t => (decDigits t).map Int.ofNat
  | '-' :: t => (decDigits t).map (fun n => -(n : Int))
  | t => (decDigits t).map Int.ofNat

/-- Content types that the `_cache_ttl` table sends to 600 seconds:
`image/`, `font/`, `woff`, `application/javascript`, `text/javascript`,
`text/css`, `application/wasm` as substrings of the lower-cased type. -/
def staticTyped (ct : Str) : Bool :=
  hasSubL ct ("image/".toList) || hasSubL ct ("font/".toList) ||
  hasSubL ct ("woff".toList) || hasSubL ct ("application/javascript".toList) ||
  hasSubL ct ("text/javascript".toList) || hasSubL ct ("text/css".toList) ||
  hasSubL ct ("application/wasm".toList)

/-- Fallback TTL table of `_cache_ttl`, applied to the lower-cased content
type when no cache-control directive decided the TTL. -/
def ttlFromType (content_type : Str) : Int :=
  let ct := lowerS content_type
  if staticTyped ct then 600
  else if hasSubL ct ("svg".toList) then 600
  else if hasSubL ct ("text/html".toList) then 30
  else if hasSubL ct ("json".toList) then 60
  else 120

/-- The `max-age` value extracted by `_cache_ttl` from a lower-cased
cache-control string: the text between the first occurrence of
`max-age=` and the next occurrence (mirroring `cc.split('max-age=')[1]`),
cut at the first comma, stripped, and read by `int`. -/
def maxAgeOf (cc : Str) : Option Int :=
  match afterFirstL ("max-age=".toList) cc with
  | none => none
  | some r => parseIntL (stripL (beforeFirstL ([',']) (beforeFirstL ("max-age=".toList) r)))

/-- Shallow embedding of `_cache_ttl(content_type, cache_control)`.  A
`None` header is modelled by the empty string, matching how the caller
passes `resp_headers.get(...)` results and how the source coerces
falsy values. -/
def cache_ttl (content_type cache_control : Str) : Int :=
  if cache_control ≠ [] then
    let cc := lowerS cache_control
    if hasSubL cc ("no-store".toList) || hasSubL cc ("private".toList) then 0
    else if hasSubL cc ("max-age=".toList) then
      match maxAgeOf cc with
      | some age => min age 3600
      | none => ttlFromType content_type
    else ttlFromType content_type
  else ttlFromType content_type

/-- One value of the `ProxyCache._cache` ordered dictionary: the tuple
`(status, headers, body, expiry)` stored by `put`.  Timestamps are
modelled as integers. -/
structure CacheEntry where
  status : Nat
  headers : List (Str × Str)
  body : Str
  expiry : Int
deriving DecidableEq, Repr

/-- State of a `ProxyCache` instance: the `OrderedDict` is an association
list in insertion/recency order (least recently used first, as Python
iterates it), together with the mirrored `_size` byte counter and the
hit/miss statistics. -/
structure Cache where
  max_bytes : Nat
  max_entries : Nat
  entries : List (Str × CacheEntry)
  size : Nat
  hits : Nat
  misses : Nat
deriving DecidableEq, Repr

/-- A freshly constructed `ProxyCache(max_bytes, max_entries)`. -/
def emptyCache (maxB maxE : Nat) : Cache :=
  ⟨maxB, maxE, [], 0, 0, 0⟩

/-- Dictionary lookup `self._cache.get(url)`.  Keys are unique in every
reachable state, so finding the first binding is finding the binding. -/
def lookupC : List (Str × CacheEntry) → Str → Option CacheEntry
  | [], _ => none
  | (k, e) :: rest, u => if k = u then some e else lookupC rest u

/-- Dictionary deletion `self._cache.pop(url)`: drop the (unique) binding
of the key, keeping order otherwise. -/
def removeC : List (Str × CacheEntry) → Str → List (Str × CacheEntry)
  | [], _ => []
  | (k, e) :: rest, u => if k = u then rest else (k, e) :: removeC rest u

/-- Byte length of an entry, `len(entry[2])` in `_remove`. -/
def bodyLen (e : CacheEntry) : Nat := e.body.length

/-- Total body bytes currently resident in the ordered dictionary. -/
def totalBytes (es : List (Str × CacheEntry)) : Nat :=
  (es.map (fun p => bodyLen p.2)).sum

/-- Keys of the ordered dictionary, in recency order. -/
def keysC (es : List (Str × CacheEntry)) : List Str := es.map Prod.fst

/-- The eviction loop of `ProxyCache.put`: while the new entry would push
the byte total over `max_bytes` or the entry count is already at
`max_entries`, pop the least recently used entry (the front) and deduct
its bytes from the running counter; stop when the bounds hold or the
dictionary is empty. -/
def evictLoop (maxB maxE newSz : Nat) :
    List (Str × CacheEntry) → Nat → List (Str × CacheEntry) × Nat
  | [], sz => ([], sz)
  | (k, e) :: rest, sz =>
    if sz + newSz > maxB ∨ rest.length + 1 ≥ maxE then
      evictLoop maxB maxE newSz rest (sz - bodyLen e)
    else ((k, e) :: rest, sz)

/-- Python `OrderedDict.move_to_end(url)`: move the binding of `url` to
the most-recent end, value unchanged. -/
def moveToEnd (es : List (Str × CacheEntry)) (u : Str) : List (Str × CacheEntry) :=
  match lookupC es u with
  | none => es
  | some e => removeC es u ++ [(u, e)]

namespace Cache

/-- Shallow embedding of `ProxyCache.get(url)` at time `now`: returns the
updated cache state and the optional `(status, headers, body)` result.
A missing key counts a miss; an entry whose expiry has passed is removed
and counts a miss; otherwise the entry is bumped to most recent and its
stored triple returned. -/
def get (c : Cache) (url : Str) (now : Int) :
    Cache × Option (Nat × List (Str × Str) × Str) :=
  match lookupC c.entries url with
  | none =>
    (⟨c.max_bytes, c.max_entries, c.entries, c.size, c.hits, c.misses + 1⟩, none)
  | some e =>
    if now ≥ e.expiry then
      (⟨c.max_bytes, c.max_entries, removeC c.entries url, c.size - bodyLen e,
        c.hits, c.misses + 1⟩, none)
    else
      (⟨c.max_bytes, c.max_entries, moveToEnd c.entries url, c.size,
        c.hits + 1, c.misses⟩, some (e.status, e.headers, e.body))

/-- Shallow embedding of `ProxyCache.put(url, status, headers, body, ttl)`
called at time `now`.  A non-positive TTL or a body larger than a tenth
of the byte ceiling leaves the cache untouched; otherwise any existing
binding of the key is removed (with its bytes), the eviction loop runs,
and the new entry is appended at the most-recent end with expiry
`now + ttl`. -/
def put (c : Cache) (url : Str) (status : Nat) (headers : List (Str × Str))
    (body : Str) (ttl : Int) (now : Int) : Cache :=
  if ttl ≤ 0 then c
  else if body.length > c.max_bytes / 10 then c
  else
    match lookupC c.entries url with
    | some e =>
      ⟨c.max_bytes, c.max_entries,
       (evictLoop c.max_bytes c.max_entries body.length
           (removeC c.entries url) (c.size - bodyLen e)).1 ++
         [(url, ⟨status, headers, body, now + ttl⟩)],
       (evictLoop c.max_bytes c.max_entries body.length
           (removeC c.entries url) (c.size - bodyLen e)).2 + body.length,
       c.hits, c.misses⟩
    | none =>
      ⟨c.max_bytes, c.max_entries,
       (evictLoop c.max_bytes c.max_entries body.length c.entries c.size).1 ++
         [(url, ⟨status, headers, body, now + ttl⟩)],
       (evictLoop c.max_bytes c.max_entries body.length c.entries c.size).2 + body.length,
       c.hits, c.misses⟩

end Cache

/-- Arguments of one `put` call, used to talk about arbitrary sequences of
insertions. -/
structure PutOp where
  url : Str
  status : Nat
  headers : List (Str × Str)
  body : Str
  ttl : Int
  now : Int
deriving Repr

/-- Run a sequence of `put` calls left to right. -/
def applyPuts (ops : List PutOp) (c : Cache) : Cache :=
  ops.foldl (fun c op => c.put op.url op.status op.headers op.body op.ttl op.now) c

/-- The onion suffix `.onion` tested by `target_host.endswith('.onion')`. -/
def onionSuf : Str := ['.', 'o', 'n', 'i', 'o', 'n']

/-- The literal `http://`. -/
def httpPre : Str := ['h', 't', 't', 'p', ':', '/', '/']

/-- The literal `https://`. -/
def httpsPre : Str := ['h', 't', 't', 'p', 's', ':', '/', '/']

/-- The status endpoint path `/status`. -/
def statusPath : Str := ['/', 's', 't', 'a', 't', 'u', 's']

/-- The setup page path test `self.path.startswith('/setup')`. -/
def setupPre : Str := ['/', 's', 'e', 't', 'u', 'p']

/-- The path-based convention marker `/proxy/`. -/
def proxyPre : Str := ['/', 'p', 'r', 'o', 'x', 'y', '/']

/-- Text after the last `@` of a netloc (`netloc.rpartition('@')[2]`),
dropping any userinfo. -/
def afterLastAt (s : Str) : Str :=
  (s.reverse.takeWhile (fun c => c ≠ '@')).reverse

/-- Hostname extracted from a netloc as `urllib.parse` does: strip
userinfo, handle a bracketed IPv6 literal, otherwise cut at the first
colon, and lower-case.  The empty string models Python `None`. -/
def hostOfNetloc (netloc : Str) : Str :=
  match afterLastAt netloc with
  | '[' :: t => lowerS (t.takeWhile (fun c => c ≠ ']'))
  | hi => lowerS (hi.takeWhile (fun c => c ≠ ':'))

/-- Port substring of a netloc (text after the host-terminating colon);
empty when no port is present. -/
def portStrOfNetloc (netloc : Str) : Str :=
  match afterLastAt netloc with
  | '[' :: t =>
    (match (t.dropWhile (fun c => c ≠ ']')).drop 1 |>.dropWhile (fun c => c ≠ ':') with
     | ':' :: p => p
     | _ => [])
  | hi =>
    (match hi.dropWhile (fun c => c ≠ ':') with
     | ':' :: p => p
     | _ => [])

/-- The `.port` accessor of a parse result: `None` for an absent or empty
port, the integer when it is a valid port number in `0..65535`, and a
raised `ValueError` (modelled as `Except.error`) otherwise. -/
def portOfStr (ps : Str) : Except Unit (Option Nat) :=
  if ps = [] then .ok none
  else
    match parseIntL (stripL ps) with
    | some n => if 0 ≤ n ∧ n ≤ 65535 then .ok (some n.toNat) else .error ()
    | none => .error ()

/-- Netloc of a forward-proxy target known to start with `http://`:
the text after the scheme up to the first `/`, `?` or `#`. -/
def fwdNetloc (path : Str) : Str :=
  (path.drop 7).takeWhile (fun c => c ≠ '/' ∧ c ≠ '?' ∧ c ≠ '#')

/-- Remainder of the target after its netloc. -/
def fwdAfterNetloc (path : Str) : Str :=
  (path.drop 7).drop (fwdNetloc path).length

/-- Remainder of the target with any fragment cut off. -/
def fwdNoFrag (path : Str) : Str :=
  (fwdAfterNetloc path).takeWhile (fun c => c ≠ '#')

/-- `parsed.path` of a forward-proxy target. -/
def fwdRawPath (path : Str) : Str :=
  beforeFirstL ['?'] (fwdNoFrag path)

/-- `parsed.query` of a forward-proxy target. -/
def fwdQuery (path : Str) : Str :=
  match afterFirstL ['?'] (fwdNoFrag path) with
  | some q => q
  | none => []

/-- `target_host` of a forward-proxy request: `(parsed.hostname or '').lower()`. -/
def fwdHost (path : Str) : Str := hostOfNetloc (fwdNetloc path)

/-- `parsed.port` of a forward-proxy request, which can raise. -/
def fwdPort (path : Str) : Except Unit (Option Nat) :=
  portOfStr (portStrOfNetloc (fwdNetloc path))

/-- `target_path` of a forward-proxy request: `parsed.path or '/'` plus
`'?' + parsed.query` when a query is present. -/
def fwdPathQ (path : Str) : Str :=
  let base := if fwdRawPath path = [] then ['/'] else fwdRawPath path
  if fwdQuery path ≠ [] then base ++ '?' :: fwdQuery path else base

/-- `target_host` of a `/proxy/{host}/{path}` request: the first path
segment after the marker, lower-cased (`parts[0].lower()`). -/
def proxy_host (path : Str) : Str :=
  lowerS ((path.drop 7).takeWhile (fun c => c ≠ '/'))

/-- `target_path` of a `/proxy/{host}/{path}` request:
`'/' + parts[1]` when a second segment exists, else `/`. -/
def proxy_path (path : Str) : Str :=
  match (path.drop 7).dropWhile (fun c => c ≠ '/') with
  | '/' :: t => '/' :: t
  | _ => ['/']

/-- Decimal rendering of a natural number. -/
def natDigits (n : Nat) : Str := (Nat.repr n).toList

/-- The `target_url` string built by `_handle_request`: the port appears
only when present and neither `0` (falsy in Python) nor `80`. -/
def buildUrl (host : Str) (port : Option Nat) (pathq : Str) : Str :=
  match port with
  | some pr =>
    if pr ≠ 0 ∧ pr ≠ 80 then httpPre ++ host ++ ':' :: natDigits pr ++ pathq
    else httpPre ++ host ++ pathq
  | none => httpPre ++ host ++ pathq

/-- The request methods that reach `_handle_request` (`do_GET`, `do_POST`
and `do_HEAD` all delegate to it). -/
inductive Method where
  | get
  | post
  | head
deriving DecidableEq, Repr

/-- Observable outcome of one `_handle_request` invocation, up to the
point where control leaves the routing logic: which endpoint answered,
which error was sent, or which fetcher is invoked with which target. -/
inductive Outcome where
  | statusPage
  | setupGet
  | setupPost
  | err (code : Nat) (msg : String)
  | cacheHit (url : Str)
  | fetchOnion (host : Str) (url : Str)
  | fetchClearnet (host : Str) (port : Option Nat) (pathq : Str) (url : Str)
  | portFailure
deriving DecidableEq, Repr

/-- Shallow embedding of the routing logic of `_handle_request`.  The
cache is abstracted to the membership test used for the GET lookup;
`portFailure` models the uncaught `ValueError` that `parsed.port`
raises on a malformed port. -/
def handle_request (cmd : Method) (path : Str) (cacheHas : Str → Bool) : Outcome :=
  if strEqL path statusPath then .statusPage
  else if startsWithL path setupPre then
    (match cmd with
     | .post => .setupPost
     | _ => .setupGet)
  else if startsWithL path httpPre then
    match fwdPort path with
    | .error _ => .portFailure
    | .ok port =>
      if cmd = .get ∧ cacheHas (buildUrl (fwdHost path) port (fwdPathQ path)) then
        .cacheHit (buildUrl (fwdHost path) port (fwdPathQ path))
      else if endsWithL (fwdHost path) onionSuf then
        .fetchOnion (fwdHost path) (buildUrl (fwdHost path) port (fwdPathQ path))
      else
        .fetchClearnet (fwdHost path) port (fwdPathQ path)
          (buildUrl (fwdHost path) port (fwdPathQ path))
  else if startsWithL path proxyPre then
    if ¬ endsWithL (proxy_host path) onionSuf then
      .err 400 "Only .onion addresses allowed in /proxy/ format"
    else if cmd = .get ∧ cacheHas (buildUrl (proxy_host path) none (proxy_path path)) then
      .cacheHit (buildUrl (proxy_host path) none (proxy_path path))
    else
      .fetchOnion (proxy_host path) (buildUrl (proxy_host path) none (proxy_path path))
  else .err 404 "Use /proxy/{host}/{path} or /status"

/-- Split a CONNECT target at its last colon, `self.path.rsplit(':', 1)`;
`none` models the `ValueError` of unpacking a one-element split. -/
def lastColonSplit : Str → Option (Str × Str)
  | [] => none
  | c :: t =>
    match lastColonSplit t with
    | some (a, b) => some (c :: a, b)
    | none => if c = ':' then some ([], t) else none

/-- Observable outcome of `do_CONNECT`: the 400 for an unparsable target,
the 502 refusing onion tunnelling, or the opened tunnel. -/
inductive ConnectOut where
  | badTarget
  | onionRejected
  | tunnel (host : Str) (port : Int)
deriving DecidableEq, Repr

/-- Parsed `host, port` of a CONNECT target, `none` when either the colon
split or `int(port_str)` raises `ValueError`. -/
def connectTarget (p : Str) : Option (Str × Int) :=
  match lastColonSplit p with
  | none => none
  | some (h, ps) =>
    match parseIntL (stripL ps) with
    | some n => some (h, n)
    | none => none

/-- Shallow embedding of `do_CONNECT`: parse failures yield the 400,
onion hosts the 502 (before any socket is opened), and everything else
proceeds to the tunnel relay. -/
def do_CONNECT (p : Str) : ConnectOut :=
  match connectTarget p with
  | none => .badTarget
  | some (h, port) =>
    if endsWithL h onionSuf then .onionRejected
    else .tunnel h port

/-- Syntax of the regular expressions compiled in `onion_proxy.py`:
character classes, sequencing, prioritised alternation, greedy counted
repetition and negative lookahead.  Unbounded greedy `*`/`+` are
represented as counted repetitions whose upper bound is the length of
the text being scanned (every starred subpattern in the source consumes
at least one character per iteration, so this is exact). -/
inductive RE where
  | eps
  | cls (p : Char → Bool)
  | seq (a b : RE)
  | alt (a b : RE)
  | rep (a : RE) (lo hi : Nat)
  | opt (a : RE)
  | nla (a : RE)

/-- Greedy counted repetition of a matcher `ma`: try one more iteration
first, fall back to stopping once the minimum count is reached. -/
def repIter (ma : Str → (Str → Option Str) → Option Str) :
    Nat → Nat → Str → (Str → Option Str) → Option Str
  | lo, 0, cs, k => if lo = 0 then k cs else none
  | lo, hi + 1, cs, k =>
    match ma cs (fun r => repIter ma (lo - 1) hi r k) with
    | some r => some r
    | none => if lo = 0 then k cs else none

/-- Backtracking matcher in continuation style, reproducing the leftmost,
greedy, first-success semantics of Python `re`: alternatives are tried
left first, repetitions longest first, and a negative lookahead
consumes nothing. -/
def reMatch : RE → Str → (Str → Option Str) → Option Str
  | .eps, cs, k => k cs
  | .cls _, [], _ => none
  | .cls p, c :: cs, k => if p c then k cs else none
  | .seq a b, cs, k => reMatch a cs (fun r => reMatch b r k)
  | .alt a b, cs, k =>
    (match reMatch a cs k with
     | some r => some r
     | none => reMatch b cs k)
  | .rep a lo hi, cs, k => repIter (fun cs2 k2 => reMatch a cs2 k2) lo hi cs k
  | .opt a, cs, k =>
    (match reMatch a cs k with
     | some r => some r
     | none => k cs)
  | .nla a, cs, k =>
    (match reMatch a cs (fun r => some r) with
     | some _ => none
     | none => k cs)

/-- Case-insensitive single character, as under `re.IGNORECASE`. -/
def ciEq (c : Char) : Char → Bool := fun d => lowerC d = lowerC c

/-- A case-insensitive literal. -/
def litCI : Str → RE
  | [] => .eps
  | c :: cs => .seq (.cls (ciEq c)) (litCI cs)

/-- The class `[a-z0-9]` under `re.IGNORECASE`. -/
def isAlnumCI (c : Char) : Bool :=
  ('a' ≤ c ∧ c ≤ 'z') ∨ ('A' ≤ c ∧ c ≤ 'Z') ∨ isDigitC c

/-- The class `[a-z0-9-]` under `re.IGNORECASE`. -/
def isLabelChar (c : Char) : Bool := isAlnumCI c ∨ c = '-'

/-- ASCII letter test. -/
def isAlphaC (c : Char) : Bool := ('a' ≤ c ∧ c ≤ 'z') ∨ ('A' ≤ c ∧ c ≤ 'Z')

/-- Greedy `*` with explicit iteration budget. -/
def starN (n : Nat) (a : RE) : RE := .rep a 0 n

/-- Greedy `+` with explicit iteration budget, `a a*`. -/
def plusN (n : Nat) (a : RE) : RE := .seq a (.rep a 0 n)

/-- The quote class `["\']`. -/
def quoteCls (c : Char) : Bool := c = '"' ∨ c = Char.ofNat 39

/-- The onion-host subpattern
`(?:[a-z0-9-]+\.)*[a-z0-9]{16,56}\.onion` shared by `HTTPS_ONION_RE`
and `ONION_URL_RE`. -/
def hostRE (n : Nat) : RE :=
  .seq (starN n (.seq (plusN n (.cls isLabelChar)) (.cls (fun c => c = '.'))))
    (.seq (.rep (.cls isAlnumCI) 16 56) (litCI (".onion".toList)))

/-- The scheme subpattern `https?://`. -/
def schemeRE : RE :=
  .seq (litCI ("http".toList)) (.seq (.opt (.cls (ciEq 's'))) (litCI ("://".toList)))

/-- Characters admitted in the optional path group of `ONION_URL_RE`,
the class `[^\s"\'<>]`. -/
def pathCharOk (c : Char) : Bool :=
  ¬ (isWsp c ∨ c = '"' ∨ c = Char.ofNat 39 ∨ c = '<' ∨ c = '>')

/-- `HTTPS_ONION_RE`: `https://((?:[a-z0-9-]+\.)*[a-z0-9]{16,56}\.onion)`
with `re.IGNORECASE`. -/
def HTTPS_ONION_RE (n : Nat) : RE :=
  .seq (litCI ("https://".toList)) (hostRE n)

/-- `ONION_URL_RE`:
`(https?://)((?:[a-z0-9-]+\.)*[a-z0-9]{16,56}\.onion)((?:/[^\s"\'<>]*)?)`. -/
def ONION_URL_RE (n : Nat) : RE :=
  .seq schemeRE (.seq (hostRE n)
    (.opt (.seq (.cls (fun c => c = '/')) (starN n (.cls pathCharOk)))))

/-- The attribute-name alternation `(?:src|href|action|srcset)`. -/
def attrRE : RE :=
  .alt (litCI ("src".toList))
    (.alt (litCI ("href".toList))
      (.alt (litCI ("action".toList)) (litCI ("srcset".toList))))

/-- The negative lookahead `(?!proxy/|/)`. -/
def notProxyNla : RE :=
  .nla (.alt (litCI ("proxy/".toList)) (.cls (fun c => c = '/')))

/-- `ROOT_REL_RE`:
`((?:src|href|action|srcset)\s*=\s*["\'])(/(?!proxy/|/)[^"\']*)`. -/
def ROOT_REL_RE (n : Nat) : RE :=
  .seq attrRE (.seq (starN n (.cls isWsp)) (.seq (.cls (fun c => c = '='))
    (.seq (starN n (.cls isWsp)) (.seq (.cls quoteCls)
      (.seq (.cls (fun c => c = '/')) (.seq notProxyNla
        (starN n (.cls (fun c => ¬ quoteCls c)))))))))

/-- `CSS_URL_RE`: `(url\(\s*["\']?)(/(?!proxy/|/)[^"\')\s]+)`. -/
def CSS_URL_RE (n : Nat) : RE :=
  .seq (litCI ("url(".toList)) (.seq (starN n (.cls isWsp))
    (.seq (.opt (.cls quoteCls)) (.seq (.cls (fun c => c = '/'))
      (.seq notProxyNla
        (plusN n (.cls (fun c => ¬ (quoteCls c ∨ c = ')' ∨ isWsp c))))))))

/-- Attempt a match anchored at the current position, returning the
matched text and the remaining input. -/
def tryAt (re : RE) (cs : Str) : Option (Str × Str) :=
  match reMatch re cs (fun r => some r) with
  | some rest => some (cs.take (cs.length - rest.length), rest)
  | none => none

/-- The scan of `re.sub`: walk left to right, at each position attempt a
match (building the pattern with an iteration budget covering the
remaining text); on success emit the replacement and resume after the
match, otherwise copy one character.  The fuel argument only bounds the
recursion and never runs out when initialised to `length + 1`. -/
def scanSub (mk : Nat → RE) (repl : Str → Str) : Nat → Str → Str
  | 0, cs => cs
  | _ + 1, [] => []
  | f + 1, c :: cs =>
    match tryAt (mk (cs.length + 2)) (c :: cs) with
    | none => c :: scanSub mk repl f cs
    | some (m, rest) =>
      if m = [] then repl [] ++ c :: scanSub mk repl f cs
      else repl m ++ scanSub mk repl f rest

/-- Global substitution `PATTERN.sub(repl, text)`. -/
def reSub (mk : Nat → RE) (repl : Str → Str) (cs : Str) : Str :=
  scanSub mk repl (cs.length + 1) cs

/-- Replacement template `http://\1` of `_downgrade_https_onion`: group 1
is everything after the eight characters `https://`. -/
def downgradeRepl (m : Str) : Str := httpPre ++ m.drop 8

/-- Shallow embedding of `_downgrade_https_onion` on decoded text (the
UTF-8 decode/encode round trip of the source is the identity on the
character-list model). -/
def downgrade_https_onion (body : Str) : Str :=
  reSub HTTPS_ONION_RE downgradeRepl body

/-- Backtracking ladder of a greedy character-class repetition: try the
continuation after consuming `j` characters of `xs`, then `j - 1`, down to
the minimum count `lo` (nothing below it). -/
def descend (k : Str → Option Str) (xs ys : Str) (lo : Nat) : Nat → Option Str
  | 0 => if lo = 0 then k (xs ++ ys) else none
  | j + 1 =>
    if j + 1 < lo then none
    else
      match k (xs.drop (j + 1) ++ ys) with
      | some r => some r
      | none => descend k xs ys lo j

/-- The first character of a string (if any) fails the class `p`. -/
def headNotP (p : Char → Bool) : Str → Prop
  | [] => True
  | c :: _ => p c = false

/-- One dotted-label group `[a-z0-9-]+\.` of the onion-host pattern. -/
def Gre (n : Nat) : RE := .seq (plusN n (.cls isLabelChar)) (.cls (fun c => c = '.'))

/-- The final part `[a-z0-9]{16,56}\.onion` of the onion-host pattern. -/
def FOre : RE := .seq (.rep (.cls isAlnumCI) 16 56) (litCI (".onion".toList))

/-- The text of a list of host labels, each followed by a dot. -/
def lpart (labels : List Str) : Str := (labels.map (fun l => l ++ ['.'])).flatten

/-- The character after a host (if any) extends neither a label nor the
dotted-label chain: it is outside `[a-z0-9-]` and is not a dot. -/
def delim : Str → Prop
  | [] => True
  | c :: _ => isLabelChar c = false ∧ c ≠ '.'

/-- Each optional label is non-empty and drawn from `[a-z0-9-]`. -/
def labelsOk (labels : List Str) : Prop :=
  ∀ l ∈ labels, l ≠ [] ∧ (∀ c ∈ l, isLabelChar c = true)

/-- The final host label has 16 to 56 characters from `[a-z0-9]`. -/
def finalOk (f : Str) : Prop :=
  16 ≤ f.length ∧ f.length ≤ 56 ∧ (∀ c ∈ f, isAlnumCI c = true)

/-- A host of the shape matched by the compiled pattern: optional dotted
labels, a final label, and the `.onion` suffix. -/
def onionHost (labels : List Str) (f : Str) : Str := lpart labels ++ f ++ onionSuf

instance (labels : List Str) : Decidable (labelsOk labels) :=
  inferInstanceAs (Decidable (∀ l ∈ labels, l ≠ [] ∧ (∀ c ∈ l, isLabelChar c = true)))

instance (f : Str) : Decidable (finalOk f) :=
  inferInstanceAs (Decidable (16 ≤ f.length ∧ f.length ≤ 56 ∧ (∀ c ∈ f, isAlnumCI c = true)))

instance (s : Str) : Decidable (delim s) :=
  match s with
  | [] => .isTrue trivial
  | c :: _ => inferInstanceAs (Decidable (isLabelChar c = false ∧ c ≠ '.'))

/-- Replacement of `ONION_URL_RE` matches in `_rewrite_onion_links`:
`/proxy/{host}{path}`, i.e. `/proxy/` followed by the match without its
scheme. -/
def onionUrlRepl (m : Str) : Str :=
  proxyPre ++ (if startsWithL (lowerS m) ("https://".toList) then m.drop 8 else m.drop 7)

/-- Prefix of the match up to and including its first quote character
(group 1 of `ROOT_REL_RE`). -/
def takeThroughQuote : Str → Str
  | [] => []
  | c :: t => if quoteCls c then [c] else c :: takeThroughQuote t

/-- Suffix of the match after its first quote character (group 2 of
`ROOT_REL_RE`). -/
def dropThroughQuote : Str → Str
  | [] => []
  | c :: t => if quoteCls c then t else dropThroughQuote t

/-- Replacement template `\1{proxy_prefix}\2` for `ROOT_REL_RE`. -/
def rootRelRepl (onion_host : Str) (m : Str) : Str :=
  takeThroughQuote m ++ proxyPre ++ onion_host ++ dropThroughQuote m

/-- Replacement template `\1{proxy_prefix}\2` for `CSS_URL_RE`; group 2
starts at the first `/` of the match. -/
def cssUrlRepl (onion_host : Str) (m : Str) : Str :=
  m.takeWhile (fun c => c ≠ '/') ++ proxyPre ++ onion_host ++
    m.dropWhile (fun c => c ≠ '/')

/-- Shallow embedding of `_rewrite_onion_links`: the three substitutions
applied in source order (absolute onion URLs, root-relative attribute
values, inline CSS `url(...)` references). -/
def rewrite_onion_links (onion_host : Str) (body : Str) : Str :=
  reSub CSS_URL_RE (cssUrlRepl onion_host)
    (reSub ROOT_REL_RE (rootRelRepl onion_host)
      (reSub ONION_URL_RE onionUrlRepl body))

/-- An upstream HTTP response as seen by `_fetch_direct` after it
lower-cases header names: status, headers, body. -/
structure NetResp where
  status : Nat
  headers : List (Str × Str)
  body : Str
deriving DecidableEq, Repr

/-- The network, abstracted: a pure oracle from
`(host, port, path, method)` to the response of `http.client`. -/
abbrev Net := Str → Nat → Str → Str → NetResp

/-- Python `dict.get(key, '')` on the lower-cased header list. -/
def getHeaderD : List (Str × Str) → Str → Str
  | [], _ => []
  | (k2, v) :: rest, k => if k2 = k then v else getHeaderD rest k

/-- The header key `location`. -/
def locationKey : Str := ['l', 'o', 'c', 'a', 't', 'i', 'o', 'n']

/-- The redirect statuses followed by `_fetch_direct`. -/
def redirectStatus (n : Nat) : Bool :=
  n = 301 ∨ n = 302 ∨ n = 303 ∨ n = 307 ∨ n = 308

/-- Python `port or 80` (both `None` and `0` are falsy). -/
def orPort80 (p : Option Nat) : Nat :=
  match p with
  | none => 80
  | some v => if v = 0 then 80 else v

/-- Characters admitted in a URL scheme, `urllib.parse.scheme_chars`. -/
def isSchemeChar (c : Char) : Bool :=
  isAlphaC c ∨ isDigitC c ∨ c = '+' ∨ c = '-' ∨ c = '.'

/-- Scheme split of `urlparse`: `(scheme, rest)` when a colon separates a
valid scheme token, else `('', url)`. -/
def splitScheme (s : Str) : Str × Str :=
  let pre := s.takeWhile (fun c => c ≠ ':')
  let headAlpha : Bool :=
    match pre with
    | c :: _ => isAlphaC c
    | [] => false
  if pre.length < s.length ∧ pre ≠ [] ∧ headAlpha ∧ pre.all isSchemeChar then
    (lowerS pre, s.drop (pre.length + 1))
  else ([], s)

/-- Netloc of a redirect Location value: present only when the text after
the scheme starts with `//`. -/
def locNetloc (loc : Str) : Str :=
  let rest := (splitScheme loc).2
  if startsWithL rest ['/', '/'] then
    (rest.drop 2).takeWhile (fun c => c ≠ '/' ∧ c ≠ '?' ∧ c ≠ '#')
  else []

/-- Remainder of a Location value after its netloc. -/
def locAfterNet (loc : Str) : Str :=
  let rest := (splitScheme loc).2
  if startsWithL rest ['/', '/'] then
    (rest.drop 2).drop (locNetloc loc).length
  else rest

/-- Path of a Location value, fragment and query stripped. -/
def locPath (loc : Str) : Str :=
  beforeFirstL ['?'] ((locAfterNet loc).takeWhile (fun c => c ≠ '#'))

/-- Query of a Location value. -/
def locQuery (loc : Str) : Str :=
  match afterFirstL ['?'] ((locAfterNet loc).takeWhile (fun c => c ≠ '#')) with
  | some q => q
  | none => []

/-- Hostname of a Location value, empty for `None`. -/
def locHostname (loc : Str) : Str := hostOfNetloc (locNetloc loc)

/-- Port of a Location value, `Except.error` modelling the `ValueError`
that `parsed.port` raises on a malformed port. -/
def locPort (loc : Str) : Except Unit (Option Nat) :=
  portOfStr (portStrOfNetloc (locNetloc loc))

/-- Decidable equality for port-parse results, used to evaluate concrete
witnesses. -/
instance : DecidableEq (Except Unit (Option Nat)) := fun a b =>
  match a, b with
  | .error (), .error () => isTrue rfl
  | .error (), .ok _ => isFalse (fun h => Except.noConfusion h)
  | .ok _, .error () => isFalse (fun h => Except.noConfusion h)
  | .ok x, .ok y =>
    if h : x = y then isTrue (congrArg Except.ok h)
    else isFalse (fun hh => h (by injection hh))

/-- Host of one redirect hop: `parsed.hostname or host` with `host` the
original target host of `_fetch_direct`. -/
def redirHost (host0 loc : Str) : Str :=
  if locHostname loc = [] then host0 else locHostname loc

/-- Request path of one redirect hop: `parsed.path or '/'` plus the query
when present. -/
def redirPath (loc : Str) : Str :=
  (if locPath loc = [] then ['/'] else locPath loc) ++
    (if locQuery loc ≠ [] then '?' :: locQuery loc else [])

/-- The scheme literal `https`. -/
def httpsL : Str := ['h', 't', 't', 'p', 's']

/-- The redirect-following loop of `_fetch_direct`.  `gas` is the number
of hops still allowed (`5 - redirects`).  Returns the final response
(`none` models an uncaught `ValueError` from a malformed Location port)
together with the list of Location values actually followed, in order.
The loop stops without following when the status is not a redirect, the
Location header is missing, or the Location scheme is `https`; each
followed hop re-fetches with method `GET`. -/
def followLoop (net : Net) (host0 : Str) : Nat → NetResp → Option NetResp × List Str
  | 0, resp => (some resp, [])
  | gas + 1, resp =>
    if redirectStatus resp.status then
      if getHeaderD resp.headers locationKey = [] then (some resp, [])
      else if (splitScheme (getHeaderD resp.headers locationKey)).1 = httpsL then
        (some resp, [])
      else
        match locPort (getHeaderD resp.headers locationKey) with
        | .error _ => (none, [])
        | .ok p =>
          ((followLoop net host0 gas
              (net (redirHost host0 (getHeaderD resp.headers locationKey)) (orPort80 p)
                (redirPath (getHeaderD resp.headers locationKey)) ['G', 'E', 'T'])).1,
            getHeaderD resp.headers locationKey ::
              (followLoop net host0 gas
                (net (redirHost host0 (getHeaderD resp.headers locationKey)) (orPort80 p)
                  (redirPath (getHeaderD resp.headers locationKey)) ['G', 'E', 'T'])).2)
    else (some resp, [])

/-- The request method chosen by the fetchers:
`"HEAD" if head_only else ("POST" if post_data else "GET")`. -/
def methodOf (post_data : Option Str) (head_only : Bool) : Str :=
  if head_only then ['H', 'E', 'A', 'D']
  else
    match post_data with
    | some _ => ['P', 'O', 'S', 'T']
    | none => ['G', 'E', 'T']

/-- Shallow embedding of `_fetch_direct`: one direct fetch, then the
redirect loop with at most five hops. -/
def fetch_direct (net : Net) (host : Str) (port : Option Nat) (path : Str)
    (post_data : Option Str) (head_only : Bool) : Option NetResp × List Str :=
  followLoop net host 5 (net host (orPort80 port) path (methodOf post_data head_only))

/-- A true `startsWithL` exhibits the remainder of the string. -/
theorem startsWithL_ex {s p : Str} (h : startsWithL s p = true) : ∃ r, s = p ++ r := by
  induction p generalizing s with
  | nil => exact ⟨s, rfl⟩
  | cons c cs ih =>
    cases s with
    | nil => simp [startsWithL] at h
    | cons a as =>
      unfold startsWithL at h
      split at h
      · obtain ⟨r, hr⟩ := ih h
        subst hr
        rename_i hac
        exact ⟨r, by simp [hac]⟩
      · exact absurd h (by simp)

/-- C1: for every GET, POST or HEAD request accepted by `_handle_request`,
whenever the dispatch reaches a fetcher, the onion fetcher receives
exactly the hosts ending in `.onion` and the clearnet fetcher exactly
the others: an outcome `fetchOnion host url` implies the host ends in
the onion suffix, and an outcome `fetchClearnet host ...` implies it
does not. -/
theorem routing_dispatch (cmd : Method) (path : Str) (cacheHas : Str → Bool) :
    (∀ h u, handle_request cmd path cacheHas = .fetchOnion h u → endsWithL h onionSuf = true)
    ∧ (∀ h p pa u, handle_request cmd path cacheHas = .fetchClearnet h p pa u →
        endsWithL h onionSuf = false) := by
  constructor
  · intro h u hEq
    unfold handle_request at hEq
    repeat' split at hEq
    all_goals simp_all
  · intro h p pa u hEq
    unfold handle_request at hEq
    repeat' split at hEq
    all_goals simp_all

/-- Witness for `routing_dispatch` at a concrete onion request. -/
theorem routing_dispatch_witness :
    endsWithL ("abcdefghijklmnop.onion".toList) onionSuf = true :=
  (routing_dispatch .get ("http://abcdefghijklmnop.onion/".toList) (fun _ => false)).1
    ("abcdefghijklmnop.onion".toList) ("http://abcdefghijklmnop.onion/".toList) (by decide)

/-- C2: a CONNECT whose parsed target host ends in `.onion` is answered
with the 502 refusal and never reaches the tunnel (the outcome is
`onionRejected`, not `tunnel`), and a `/proxy/` request whose host does
not end in `.onion` is answered with the 400 error and never reaches a
fetcher. -/
theorem connect_onion_rejected_and_proxy_guard :
    (∀ p h q, connectTarget p = some (h, q) → endsWithL h onionSuf = true →
        do_CONNECT p = .onionRejected)
    ∧ (∀ cmd path cacheHas, startsWithL path proxyPre = true →
        endsWithL (proxy_host path) onionSuf = false →
        handle_request cmd path cacheHas =
          .err 400 "Only .onion addresses allowed in /proxy/ format") := by
  constructor
  · intro p h q hp ho
    unfold do_CONNECT
    rw [hp]
    simp [ho]
  · intro cmd path cacheHas hpre hnon
    obtain ⟨r, rfl⟩ := startsWithL_ex hpre
    simp only [proxyPre, List.cons_append, List.nil_append] at hnon
    unfold handle_request
    simp [strEqL, startsWithL, statusPath, setupPre, httpPre, proxyPre, hnon]

/-- Witness for `connect_onion_rejected_and_proxy_guard` at concrete
targets. -/
theorem connect_onion_rejected_and_proxy_guard_witness :
    do_CONNECT ("foo.onion:443".toList) = .onionRejected ∧
    handle_request .get ("/proxy/example.com/x".toList) (fun _ => false) =
      .err 400 "Only .onion addresses allowed in /proxy/ format" :=
  ⟨connect_onion_rejected_and_proxy_guard.1 ("foo.onion:443".toList)
      ("foo.onion".toList) 443 (by decide) (by decide),
    connect_onion_rejected_and_proxy_guard.2 .get ("/proxy/example.com/x".toList)
      (fun _ => false) (by decide) (by decide)⟩

/-- C9 counterexample: the target `/setup` is not the status path, not an
absolute URI and not of the `/proxy/` form, yet `_handle_request`
serves the setup page instead of the 404-equivalent error. -/
theorem setup_path_no_404 :
    strEqL ("/setup".toList) statusPath = false
    ∧ startsWithL ("/setup".toList) httpPre = false
    ∧ startsWithL ("/setup".toList) proxyPre = false
    ∧ handle_request .get ("/setup".toList) (fun _ => false) = .setupGet
    ∧ Outcome.setupGet ≠ .err 404 "Use /proxy/{host}/{path} or /status" := by
  decide

/-- C9 as amended: every GET, POST or HEAD request whose target is not
the status path, not a setup path (prefix `/setup`), not an absolute
URI beginning `http://` and not of the `/proxy/{host}/{path}` form is
answered with the 404 error naming the accepted request forms. -/
theorem unsupported_path_404 (cmd : Method) (path : Str) (cacheHas : Str → Bool)
    (h1 : strEqL path statusPath = false)
    (h2 : startsWithL path setupPre = false)
    (h3 : startsWithL path httpPre = false)
    (h4 : startsWithL path proxyPre = false) :
    handle_request cmd path cacheHas = .err 404 "Use /proxy/{host}/{path} or /status" := by
  unfold handle_request
  simp [h1, h2, h3, h4]

/-- Witness for `unsupported_path_404` at a concrete unsupported target. -/
theorem unsupported_path_404_witness :
    handle_request .get ("/nope".toList) (fun _ => false) =
      .err 404 "Use /proxy/{host}/{path} or /status" :=
  unsupported_path_404 .get ("/nope".toList) (fun _ => false)
    (by decide) (by decide) (by decide) (by decide)

/-- C10: a non-CONNECT request whose target begins with `https://` is not
recognised as forward-proxy style (that requires the prefix `http://`)
and is answered with the 404-equivalent unsupported-path error. -/
theorem https_target_rejected (cmd : Method) (path : Str) (cacheHas : Str → Bool)
    (hpre : startsWithL path httpsPre = true) :
    handle_request cmd path cacheHas = .err 404 "Use /proxy/{host}/{path} or /status" := by
  obtain ⟨r, rfl⟩ := startsWithL_ex hpre
  unfold handle_request
  simp [strEqL, startsWithL, statusPath, setupPre, httpPre, proxyPre, httpsPre]

/-- Witness for `https_target_rejected` at a concrete https URI. -/
theorem https_target_rejected_witness :
    handle_request .get ("https://example.com/".toList) (fun _ => false) =
      .err 404 "Use /proxy/{host}/{path} or /status" :=
  https_target_rejected .get ("https://example.com/".toList) (fun _ => false) (by decide)

/-- A successful `afterFirstL` implies the substring occurs. -/
theorem hasSubL_of_afterFirstL {sub s r : Str} (h : afterFirstL sub s = some r) :
    hasSubL s sub = true := by
  induction s with
  | nil =>
    unfold afterFirstL at h
    split at h
    · rename_i hs
      unfold hasSubL
      simp [hs]
    · simp at h
  | cons c t ih =>
    unfold afterFirstL at h
    split at h
    · rename_i hs
      unfold hasSubL
      simp [hs]
    · unfold hasSubL
      simp [ih h]

/-- The cache-control header fails to decide the TTL: it is absent, or
carries neither `no-store` nor `private` and its `max-age` clause is
absent or unreadable. -/
def ccUndecided (cc : Str) : Prop :=
  cc = [] ∨ (hasSubL (lowerS cc) ("no-store".toList) = false ∧
    hasSubL (lowerS cc) ("private".toList) = false ∧
    (hasSubL (lowerS cc) ("max-age=".toList) = false ∨
      maxAgeOf (lowerS cc) = none))

/-- When the cache-control header decides nothing, `_cache_ttl` falls
back to the content-type table. -/
theorem cache_ttl_fallback (ct cc : Str) (h : ccUndecided cc) :
    cache_ttl ct cc = ttlFromType ct := by
  unfold cache_ttl
  rcases h with rfl | ⟨hns, hpv, hmx⟩
  · simp
  · simp only [String.toList] at hns hpv hmx
    by_cases hcc : cc = []
    · simp [hcc]
    · rcases hmx with hmx | hmx
      · simp [hcc, hns, hpv, hmx]
      · by_cases hsub : hasSubL (lowerS cc) ("max-age=".toList) = true
        · simp only [String.toList] at hsub
          simp [hcc, hns, hpv, hsub, hmx]
        · simp only [String.toList] at hsub
          simp [hcc, hns, hpv, Bool.eq_false_iff.mpr hsub]

/-- C5: the computed TTL is 0 when the cache-control value contains
`no-store` or `private`; otherwise `min(N, 3600)` when it contains a
readable `max-age=N`; otherwise, from the content type, 600 seconds for
image, font, javascript, css or wasm types, 600 for SVG, 30 for HTML,
60 for JSON and 120 for everything else, following the priority order
of the source. -/
theorem ttl_policy :
    (∀ ct cc, cc ≠ [] →
        (hasSubL (lowerS cc) ("no-store".toList) = true ∨
          hasSubL (lowerS cc) ("private".toList) = true) →
        cache_ttl ct cc = 0)
    ∧ (∀ ct cc n, cc ≠ [] →
        hasSubL (lowerS cc) ("no-store".toList) = false →
        hasSubL (lowerS cc) ("private".toList) = false →
        maxAgeOf (lowerS cc) = some n →
        cache_ttl ct cc = min n 3600)
    ∧ (∀ ct cc, ccUndecided cc →
        (staticTyped (lowerS ct) = true ∨ hasSubL (lowerS ct) ("svg".toList) = true) →
        cache_ttl ct cc = 600)
    ∧ (∀ ct cc, ccUndecided cc →
        staticTyped (lowerS ct) = false → hasSubL (lowerS ct) ("svg".toList) = false →
        hasSubL (lowerS ct) ("text/html".toList) = true →
        cache_ttl ct cc = 30)
    ∧ (∀ ct cc, ccUndecided cc →
        staticTyped (lowerS ct) = false → hasSubL (lowerS ct) ("svg".toList) = false →
        hasSubL (lowerS ct) ("text/html".toList) = false →
        hasSubL (lowerS ct) ("json".toList) = true →
        cache_ttl ct cc = 60)
    ∧ (∀ ct cc, ccUndecided cc →
        staticTyped (lowerS ct) = false → hasSubL (lowerS ct) ("svg".toList) = false →
        hasSubL (lowerS ct) ("text/html".toList) = false →
        hasSubL (lowerS ct) ("json".toList) = false →
        cache_ttl ct cc = 120) := by
  refine ⟨?_, ?_, ?_, ?_, ?_, ?_⟩
  · intro ct cc hne hnsv
    unfold cache_ttl
    rcases hnsv with h1 | h1 <;> simp only [String.toList] at h1 <;> simp [hne, h1]
  · intro ct cc n hne hns hpv hma
    have hsub : hasSubL (lowerS cc) ("max-age=".toList) = true := by
      unfold maxAgeOf at hma
      cases hAf : afterFirstL ("max-age=".toList) (lowerS cc) with
      | none =>
        rw [hAf] at hma
        simp at hma
      | some r => exact hasSubL_of_afterFirstL hAf
    simp only [String.toList] at hns hpv hsub hma
    unfold cache_ttl
    simp [hne, hns, hpv, hsub, hma]
  · intro ct cc hcc hty
    rw [cache_ttl_fallback ct cc hcc]
    unfold ttlFromType
    rcases hty with h1 | h1 <;> (try simp only [String.toList] at h1)
    · simp [h1]
    · by_cases hs : staticTyped (lowerS ct) = true <;> simp [hs, h1]
  · intro ct cc hcc hst hsvg hhtml
    rw [cache_ttl_fallback ct cc hcc]
    unfold ttlFromType
    simp only [String.toList] at hsvg hhtml
    simp [hst, hsvg, hhtml]
  · intro ct cc hcc hst hsvg hhtml hjson
    rw [cache_ttl_fallback ct cc hcc]
    unfold ttlFromType
    simp only [String.toList] at hsvg hhtml hjson
    simp [hst, hsvg, hhtml, hjson]
  · intro ct cc hcc hst hsvg hhtml hjson
    rw [cache_ttl_fallback ct cc hcc]
    unfold ttlFromType
    simp only [String.toList] at hsvg hhtml hjson
    simp [hst, hsvg, hhtml, hjson]

/-- Witness for `ttl_policy` exercising all six clauses at concrete
headers. -/
theorem ttl_policy_witness :
    cache_ttl ("text/css".toList) ("no-store".toList) = 0
    ∧ cache_ttl ("text/css".toList) ("public, max-age=100".toList) = min 100 3600
    ∧ cache_ttl ("image/png".toList) [] = 600
    ∧ cache_ttl ("text/html".toList) [] = 30
    ∧ cache_ttl ("application/json".toList) ("max-age=oops".toList) = 60
    ∧ cache_ttl ("text/plain".toList) [] = 120 :=
  ⟨ttl_policy.1 _ _ (by decide) (Or.inl (by decide)),
   ttl_policy.2.1 _ _ 100 (by decide) (by decide) (by decide) (by decide),
   ttl_policy.2.2.1 _ _ (Or.inl rfl) (Or.inl (by decide)),
   ttl_policy.2.2.2.1 _ _ (Or.inl rfl) (by decide) (by decide) (by decide),
   ttl_policy.2.2.2.2.1 _ _
     (Or.inr ⟨by decide, by decide, Or.inr (by decide)⟩)
     (by decide) (by decide) (by decide) (by decide),
   ttl_policy.2.2.2.2.2 _ _ (Or.inl rfl) (by decide) (by decide) (by decide) (by decide)⟩

/-- Default entry, used only for instance search. -/
instance : Inhabited CacheEntry := ⟨⟨0, [], [], 0⟩⟩

/-- A key is absent from the dictionary iff its lookup fails. -/
theorem lookupC_none_iff {es : List (Str × CacheEntry)} {k : Str} :
    lookupC es k = none ↔ k ∉ keysC es := by
  induction es with
  | nil => simp [lookupC, keysC]
  | cons p rest ih =>
    obtain ⟨k2, e⟩ := p
    unfold lookupC
    by_cases h : k2 = k
    · subst h
      simp [keysC]
    · simp [h, ih, keysC, Ne.symm h]

/-- Deleting an absent key leaves the dictionary unchanged. -/
theorem removeC_of_none {es : List (Str × CacheEntry)} {k : Str}
    (h : lookupC es k = none) : removeC es k = es := by
  induction es with
  | nil => rfl
  | cons p rest ih =>
    obtain ⟨k2, e⟩ := p
    unfold lookupC at h
    unfold removeC
    by_cases hk : k2 = k
    · simp [hk] at h
    · simp only [if_neg hk] at h ⊢
      rw [ih h]

/-- Byte total of a cons. -/
theorem totalBytes_cons (k : Str) (e : CacheEntry) (es : List (Str × CacheEntry)) :
    totalBytes ((k, e) :: es) = bodyLen e + totalBytes es := by
  simp [totalBytes]

/-- Byte total of an append. -/
theorem totalBytes_append (es1 es2 : List (Str × CacheEntry)) :
    totalBytes (es1 ++ es2) = totalBytes es1 + totalBytes es2 := by
  simp [totalBytes]

/-- Deleting a present key removes exactly its bytes. -/
theorem totalBytes_removeC {es : List (Str × CacheEntry)} {u : Str} {e : CacheEntry}
    (h : lookupC es u = some e) :
    totalBytes es = bodyLen e + totalBytes (removeC es u) := by
  induction es with
  | nil => simp [lookupC] at h
  | cons p rest ih =>
    obtain ⟨k2, e2⟩ := p
    unfold lookupC at h
    unfold removeC
    by_cases hk : k2 = u
    · simp only [if_pos hk] at h ⊢
      obtain rfl : e2 = e := by injection h
      rw [totalBytes_cons]
    · simp only [if_neg hk] at h ⊢
      rw [totalBytes_cons, totalBytes_cons, ih h]
      omega

/-- Deletion only ever drops keys. -/
theorem keysC_removeC_sub (es : List (Str × CacheEntry)) (u : Str) :
    keysC (removeC es u) ⊆ keysC es := by
  induction es with
  | nil => simp [removeC]
  | cons p rest ih =>
    obtain ⟨k2, e⟩ := p
    unfold removeC
    by_cases hk : k2 = u
    · simp only [if_pos hk, keysC]
      intro a ha
      exact List.mem_cons_of_mem _ ha
    · simp only [if_neg hk, keysC, List.map_cons]
      intro a ha
      rcases List.mem_cons.mp ha with h1 | h1
      · exact List.mem_cons.mpr (Or.inl h1)
      · exact List.mem_cons.mpr (Or.inr (ih h1))

/-- With unique keys, the deleted key is gone. -/
theorem not_mem_keysC_removeC {es : List (Str × CacheEntry)} {u : Str}
    (hnd : (keysC es).Nodup) : u ∉ keysC (removeC es u) := by
  induction es with
  | nil => simp [removeC, keysC]
  | cons p rest ih =>
    obtain ⟨k2, e⟩ := p
    simp only [keysC, List.map_cons, List.nodup_cons] at hnd
    unfold removeC
    by_cases hk : k2 = u
    · subst hk
      simpa [keysC] using hnd.1
    · simp only [if_neg hk, keysC, List.map_cons, List.mem_cons]
      push_neg
      exact ⟨fun h => hk h.symm, ih hnd.2⟩

/-- Deletion preserves key uniqueness. -/
theorem nodup_keysC_removeC {es : List (Str × CacheEntry)} {u : Str}
    (hnd : (keysC es).Nodup) : (keysC (removeC es u)).Nodup := by
  induction es with
  | nil => simp [removeC, keysC]
  | cons p rest ih =>
    obtain ⟨k2, e⟩ := p
    simp only [keysC, List.map_cons, List.nodup_cons] at hnd
    unfold removeC
    by_cases hk : k2 = u
    · simp only [if_pos hk]
      exact hnd.2
    · simp only [if_neg hk, keysC, List.map_cons, List.nodup_cons]
      exact ⟨fun h => hnd.1 (keysC_removeC_sub rest u h), ih hnd.2⟩

/-- Deletion never grows the dictionary. -/
theorem length_removeC_le (es : List (Str × CacheEntry)) (u : Str) :
    (removeC es u).length ≤ es.length := by
  induction es with
  | nil => simp [removeC]
  | cons p rest ih =>
    obtain ⟨k2, e⟩ := p
    unfold removeC
    by_cases hk : k2 = u
    · simp [hk]
    · simp only [if_neg hk, List.length_cons]
      omega

/-- The eviction loop returns a suffix of the recency order: it only
drops entries from the least-recent front. -/
theorem evictLoop_drop (maxB maxE n : Nat) :
    ∀ (es : List (Str × CacheEntry)) (sz : Nat),
      ∃ k, (evictLoop maxB maxE n es sz).1 = es.drop k := by
  intro es
  induction es with
  | nil => exact fun sz => ⟨0, rfl⟩
  | cons p rest ih =>
    intro sz
    obtain ⟨k2, e⟩ := p
    unfold evictLoop
    split
    · obtain ⟨k, hk⟩ := ih (sz - bodyLen e)
      exact ⟨k + 1, hk⟩
    · exact ⟨0, rfl⟩

/-- The eviction loop keeps the byte counter exact. -/
theorem evictLoop_size (maxB maxE n : Nat) :
    ∀ (es : List (Str × CacheEntry)) (sz : Nat), sz = totalBytes es →
      (evictLoop maxB maxE n es sz).2 = totalBytes (evictLoop maxB maxE n es sz).1 := by
  intro es
  induction es with
  | nil =>
    intro sz h
    simpa [evictLoop, totalBytes] using h
  | cons p rest ih =>
    intro sz h
    obtain ⟨k2, e⟩ := p
    rw [totalBytes_cons] at h
    unfold evictLoop
    split
    · exact ih (sz - bodyLen e) (by omega)
    · simpa [totalBytes_cons] using h

/-- On exit the eviction loop has either emptied the dictionary or
established both ceilings for the incoming entry. -/
theorem evictLoop_post (maxB maxE n : Nat) :
    ∀ (es : List (Str × CacheEntry)) (sz : Nat),
      (evictLoop maxB maxE n es sz).1 = [] ∨
        ((evictLoop maxB maxE n es sz).2 + n ≤ maxB ∧
          (evictLoop maxB maxE n es sz).1.length < maxE) := by
  intro es
  induction es with
  | nil => exact fun sz => Or.inl rfl
  | cons p rest ih =>
    intro sz
    obtain ⟨k2, e⟩ := p
    unfold evictLoop
    split
    · exact ih (sz - bodyLen e)
    · rename_i hcond
      push_neg at hcond
      right
      refine ⟨by omega, ?_⟩
      simpa using hcond.2


/-- State invariant of `ProxyCache`: the `_size` counter is exact, both
ceilings hold, and dictionary keys are unique. -/
def Inv (c : Cache) : Prop :=
  c.size = totalBytes c.entries ∧
  totalBytes c.entries ≤ c.max_bytes ∧
  c.entries.length ≤ c.max_entries ∧
  (keysC c.entries).Nodup

/-- Keys of a dropped prefix. -/
theorem keysC_drop (es : List (Str × CacheEntry)) (k : Nat) :
    keysC (es.drop k) = (keysC es).drop k := by
  simp [keysC, List.map_drop]

/-- Appending one fresh key preserves uniqueness. -/
theorem nodup_append_singleton {xs : List Str} {u : Str}
    (h1 : xs.Nodup) (h2 : u ∉ xs) : (xs ++ [u]).Nodup := by
  rw [List.nodup_append]
  refine ⟨h1, List.nodup_singleton u, ?_⟩
  intro a ha hb
  simp at hb
  subst hb
  exact h2 ha

/-- Byte total of one fresh entry. -/
theorem totalBytes_singleton (u : Str) (st : Nat) (hs : List (Str × Str))
    (body : Str) (ex : Int) :
    totalBytes [(u, ⟨st, hs, body, ex⟩)] = body.length := by
  simp [totalBytes, bodyLen]

/-- `put` preserves the cache invariant whenever the entry ceiling is at
least one. -/
theorem put_inv {c : Cache} (hE : 1 ≤ c.max_entries) (h : Inv c)
    (url : Str) (st : Nat) (hs : List (Str × Str)) (body : Str) (ttl now : Int) :
    Inv (c.put url st hs body ttl now) := by
  obtain ⟨hacc, hB, hL, hnd⟩ := h
  unfold Cache.put
  split
  · exact ⟨hacc, hB, hL, hnd⟩
  split
  · exact ⟨hacc, hB, hL, hnd⟩
  rename_i hbig
  push_neg at hbig
  split
  · rename_i e hlk
    have hacc1 : c.size - bodyLen e = totalBytes (removeC c.entries url) := by
      rw [hacc, totalBytes_removeC hlk]
      omega
    have hsz := evictLoop_size c.max_bytes c.max_entries body.length
      (removeC c.entries url) (c.size - bodyLen e) hacc1
    obtain ⟨k, hk⟩ := evictLoop_drop c.max_bytes c.max_entries body.length
      (removeC c.entries url) (c.size - bodyLen e)
    have hpost := evictLoop_post c.max_bytes c.max_entries body.length
      (removeC c.entries url) (c.size - bodyLen e)
    have hnotmem : url ∉ keysC ((evictLoop c.max_bytes c.max_entries body.length
        (removeC c.entries url) (c.size - bodyLen e)).1) := by
      rw [hk, keysC_drop]
      intro hm
      exact not_mem_keysC_removeC hnd (List.drop_subset _ _ hm)
    have hnd1 : (keysC ((evictLoop c.max_bytes c.max_entries body.length
        (removeC c.entries url) (c.size - bodyLen e)).1)).Nodup := by
      rw [hk, keysC_drop]
      exact (nodup_keysC_removeC hnd).sublist (List.drop_sublist _ _)
    refine ⟨?_, ?_, ?_, ?_⟩ <;> dsimp only
    · rw [totalBytes_append, totalBytes_singleton, hsz]
    · rw [totalBytes_append, totalBytes_singleton]
      rcases hpost with hp | hp
      · rw [hp]
        simp only [totalBytes, List.map_nil, List.sum_nil, Nat.zero_add]
        exact le_trans hbig (Nat.div_le_self _ _)
      · omega
    · rcases hpost with hp | hp
      · simp [hp, hE]
      · simp only [List.length_append, List.length_cons, List.length_nil]
        omega
    · simp only [keysC, List.map_append, List.map_cons, List.map_nil]
      exact nodup_append_singleton hnd1 hnotmem
  · rename_i hlk
    have hsz := evictLoop_size c.max_bytes c.max_entries body.length c.entries c.size hacc
    obtain ⟨k, hk⟩ := evictLoop_drop c.max_bytes c.max_entries body.length c.entries c.size
    have hpost := evictLoop_post c.max_bytes c.max_entries body.length c.entries c.size
    have hnotmem : url ∉ keysC ((evictLoop c.max_bytes c.max_entries body.length
        c.entries c.size).1) := by
      rw [hk, keysC_drop]
      intro hm
      exact (lookupC_none_iff.mp hlk) (List.drop_subset _ _ hm)
    have hnd1 : (keysC ((evictLoop c.max_bytes c.max_entries body.length
        c.entries c.size).1)).Nodup := by
      rw [hk, keysC_drop]
      exact hnd.sublist (List.drop_sublist _ _)
    refine ⟨?_, ?_, ?_, ?_⟩ <;> dsimp only
    · rw [totalBytes_append, totalBytes_singleton, hsz]
    · rw [totalBytes_append, totalBytes_singleton]
      rcases hpost with hp | hp
      · rw [hp]
        simp only [totalBytes, List.map_nil, List.sum_nil, Nat.zero_add]
        exact le_trans hbig (Nat.div_le_self _ _)
      · omega
    · rcases hpost with hp | hp
      · simp [hp, hE]
      · simp only [List.length_append, List.length_cons, List.length_nil]
        omega
    · simp only [keysC, List.map_append, List.map_cons, List.map_nil]
      exact nodup_append_singleton hnd1 hnotmem

/-- `put` never changes the configured ceilings. -/
theorem put_config (c : Cache) (url : Str) (st : Nat) (hs : List (Str × Str))
    (body : Str) (ttl now : Int) :
    (c.put url st hs body ttl now).max_bytes = c.max_bytes ∧
    (c.put url st hs body ttl now).max_entries = c.max_entries := by
  unfold Cache.put
  split
  · exact ⟨rfl, rfl⟩
  split
  · exact ⟨rfl, rfl⟩
  split
  · exact ⟨rfl, rfl⟩
  · exact ⟨rfl, rfl⟩

/-- A fresh cache satisfies the invariant. -/
theorem emptyCache_inv (B E : Nat) : Inv (emptyCache B E) :=
  ⟨rfl, by simp [totalBytes, emptyCache], by simp [emptyCache], by simp [keysC, emptyCache]⟩

/-- Any sequence of `put` calls preserves the invariant. -/
theorem applyPuts_inv (ops : List PutOp) {c : Cache} (hE : 1 ≤ c.max_entries)
    (h : Inv c) : Inv (applyPuts ops c) := by
  induction ops generalizing c with
  | nil => exact h
  | cons op rest ih =>
    have hcfg := put_config c op.url op.status op.headers op.body op.ttl op.now
    exact ih (by rw [hcfg.2]; exact hE)
      (put_inv hE h op.url op.status op.headers op.body op.ttl op.now)

/-- Sequences of `put` calls never change the ceilings. -/
theorem applyPuts_config (ops : List PutOp) (c : Cache) :
    (applyPuts ops c).max_bytes = c.max_bytes ∧
    (applyPuts ops c).max_entries = c.max_entries := by
  induction ops generalizing c with
  | nil => exact ⟨rfl, rfl⟩
  | cons op rest ih =>
    have hcfg := put_config c op.url op.status op.headers op.body op.ttl op.now
    have := ih (c.put op.url op.status op.headers op.body op.ttl op.now)
    exact ⟨by rw [applyPuts, List.foldl_cons]; exact hcfg.1 ▸ this.1,
           by rw [applyPuts, List.foldl_cons]; exact hcfg.2 ▸ this.2⟩

/-- A body larger than a tenth of the byte ceiling is never cached. -/
theorem put_oversize {c : Cache} {url : Str} {st : Nat} {hs : List (Str × Str)}
    {body : Str} {ttl now : Int} (h : c.max_bytes / 10 < body.length) :
    c.put url st hs body ttl now = c := by
  unfold Cache.put
  split
  · rfl
  · rfl

/-- An accepted insertion yields a most-recent suffix of the previous
order (key freshly re-inserted at the end). -/
theorem put_entries_suffix {c : Cache} {url : Str} {st : Nat} {hs : List (Str × Str)}
    {body : Str} {ttl now : Int} (httl : 0 < ttl) (hsz : body.length ≤ c.max_bytes / 10) :
    ∃ k, (c.put url st hs body ttl now).entries
      = (removeC c.entries url).drop k ++ [(url, ⟨st, hs, body, now + ttl⟩)] := by
  unfold Cache.put
  split
  · rename_i h1
    exact absurd httl (by omega)
  split
  · rename_i h2
    exact absurd h2 (by omega)
  split
  · rename_i e hlk
    obtain ⟨k, hk⟩ := evictLoop_drop c.max_bytes c.max_entries body.length
      (removeC c.entries url) (c.size - bodyLen e)
    refine ⟨k, ?_⟩
    dsimp only
    rw [hk]
  · rename_i hlk
    obtain ⟨k, hk⟩ := evictLoop_drop c.max_bytes c.max_entries body.length c.entries c.size
    refine ⟨k, ?_⟩
    rw [removeC_of_none hlk]
    dsimp only
    rw [hk]

/-- `put` of a different key never makes a key appear. -/
theorem put_not_mem {c : Cache} {url : Str} {st : Nat} {hs : List (Str × Str)}
    {body : Str} {ttl now : Int} {k : Str}
    (hk : k ∉ keysC c.entries) (hne : url ≠ k) :
    k ∉ keysC (c.put url st hs body ttl now).entries := by
  by_cases httl : ttl ≤ 0
  · unfold Cache.put
    simp only [if_pos httl]
    exact hk
  by_cases hbig : body.length > c.max_bytes / 10
  · rw [put_oversize hbig]
    exact hk
  push_neg at httl hbig
  obtain ⟨j, hj⟩ := @put_entries_suffix c url st hs body ttl now httl hbig
  rw [hj]
  intro hm
  simp only [keysC, List.map_append, List.map_cons, List.map_nil, List.mem_append,
    List.mem_cons, List.not_mem_nil, or_false] at hm
  rcases hm with hm | hm
  · have : k ∈ keysC (removeC c.entries url) := by
      have := List.drop_subset j (removeC c.entries url)
      have hmem : k ∈ keysC ((removeC c.entries url).drop j) := by
        simpa [keysC] using hm
      rw [keysC_drop] at hmem
      exact List.drop_subset _ _ hmem
    exact hk (keysC_removeC_sub _ _ this)
  · exact hne hm.symm

/-- A key never inserted stays absent over any `put` sequence. -/
theorem applyPuts_not_mem (ops : List PutOp) {c : Cache} {k : Str}
    (h : k ∉ keysC c.entries) (hall : ∀ op ∈ ops, op.url ≠ k) :
    k ∉ keysC (applyPuts ops c).entries := by
  induction ops generalizing c with
  | nil => exact h
  | cons op rest ih =>
    exact ih (put_not_mem h (hall op (List.mem_cons_self op rest)))
      (fun o ho => hall o (List.mem_cons_of_mem op ho))

/-- `get` of an absent key is absent. -/
theorem get_none_of_not_mem {c : Cache} {k : Str} {now : Int}
    (h : k ∉ keysC c.entries) : (c.get k now).2 = none := by
  unfold Cache.get
  rw [lookupC_none_iff.mpr h]

/-- `get` of an expired entry is absent. -/
theorem get_none_of_expired {c : Cache} {k : Str} {now : Int} {e : CacheEntry}
    (hlk : lookupC c.entries k = some e) (hex : e.expiry ≤ now) :
    (c.get k now).2 = none := by
  unfold Cache.get
  rw [hlk]
  simp [hex]

/-- Lookup finds a freshly appended binding of an otherwise absent key. -/
theorem lookupC_append_self {es : List (Str × CacheEntry)} {k : Str} {e : CacheEntry}
    (h : k ∉ keysC es) : lookupC (es ++ [(k, e)]) k = some e := by
  induction es with
  | nil => simp [lookupC]
  | cons p rest ih =>
    obtain ⟨k2, e2⟩ := p
    simp only [keysC, List.map_cons, List.mem_cons] at h
    push_neg at h
    rw [List.cons_append]
    unfold lookupC
    rw [if_neg (fun hh => h.1 hh.symm)]
    exact ih (by simpa [keysC] using h.2)

/-- `get` immediately after an accepted `put` of the same key, before the
TTL elapses, returns the stored triple. -/
theorem get_after_put {c : Cache} {url : Str} {st : Nat} {hs : List (Str × Str)}
    {body : Str} {ttl now nowq : Int}
    (hnd : (keysC c.entries).Nodup) (hsz : body.length ≤ c.max_bytes / 10)
    (h1 : now ≤ nowq) (h2 : nowq < now + ttl) :
    ((c.put url st hs body ttl now).get url nowq).2 = some (st, hs, body) := by
  have httl : 0 < ttl := by omega
  obtain ⟨k, hk⟩ := @put_entries_suffix c url st hs body ttl now httl hsz
  have hnot : url ∉ keysC ((removeC c.entries url).drop k) := by
    rw [keysC_drop]
    intro hm
    exact not_mem_keysC_removeC hnd (List.drop_subset _ _ hm)
  have hlk : lookupC (c.put url st hs body ttl now).entries url
      = some ⟨st, hs, body, now + ttl⟩ := by
    rw [hk]
    exact lookupC_append_self hnot
  unfold Cache.get
  rw [hlk]
  dsimp only
  have : ¬ (nowq ≥ now + ttl) := by omega
  rw [if_neg this]

/-- The eviction loop of `put` is minimal as well as sufficient: the
survivors are `es.drop k` for a `k` such that every longer suffix
(every `j < k`) still violates a ceiling for the incoming entry.  Since
bytes and length only shrink along drops, `es.drop k` is exactly the
longest most-recent suffix fitting under both ceilings. -/
theorem evictLoop_minimal (maxB maxE n : Nat) :
    ∀ (es : List (Str × CacheEntry)) (sz : Nat), sz = totalBytes es →
      ∃ k, (evictLoop maxB maxE n es sz).1 = es.drop k ∧
        ∀ j, j < k →
          totalBytes (es.drop j) + n > maxB ∨ (es.drop j).length ≥ maxE := by
  intro es
  induction es with
  | nil =>
    intro sz h
    exact ⟨0, rfl, fun j hj => absurd hj (Nat.not_lt_zero j)⟩
  | cons p rest ih =>
    intro sz h
    obtain ⟨k2, e⟩ := p
    rw [totalBytes_cons] at h
    unfold evictLoop
    split
    · rename_i hcond
      obtain ⟨k, hk, hmin⟩ := ih (sz - bodyLen e) (by omega)
      refine ⟨k + 1, by simpa using hk, ?_⟩
      intro j hj
      cases j with
      | zero =>
        simp only [List.drop_zero]
        rw [totalBytes_cons]
        simpa [h] using hcond
      | succ j =>
        simpa using hmin j (by omega)
    · exact ⟨0, rfl, fun j hj => absurd hj (Nat.not_lt_zero j)⟩

/-- An accepted `put` on a cache with an exact byte counter keeps, of the
previous recency order with any old binding of the key removed, exactly
the entries of the longest most-recent suffix fitting under both
ceilings, and appends the fresh entry at the most-recent end. -/
theorem put_entries_minimal {c : Cache} {url : Str} {st : Nat} {hs : List (Str × Str)}
    {body : Str} {ttl now : Int} (httl : 0 < ttl) (hsz : body.length ≤ c.max_bytes / 10)
    (hacc : c.size = totalBytes c.entries) :
    ∃ k, (c.put url st hs body ttl now).entries
        = (removeC c.entries url).drop k ++ [(url, ⟨st, hs, body, now + ttl⟩)]
      ∧ ∀ j, j < k →
          totalBytes ((removeC c.entries url).drop j) + body.length > c.max_bytes
          ∨ ((removeC c.entries url).drop j).length ≥ c.max_entries := by
  unfold Cache.put
  split
  · rename_i h1
    exact absurd httl (by omega)
  split
  · rename_i h2
    exact absurd h2 (by omega)
  split
  · rename_i e hlk
    have hacc1 : c.size - bodyLen e = totalBytes (removeC c.entries url) := by
      rw [hacc, totalBytes_removeC hlk]
      omega
    obtain ⟨k, hk, hmin⟩ := evictLoop_minimal c.max_bytes c.max_entries body.length
      (removeC c.entries url) (c.size - bodyLen e) hacc1
    refine ⟨k, ?_, hmin⟩
    dsimp only
    rw [hk]
  · rename_i hlk
    have heq : removeC c.entries url = c.entries := removeC_of_none hlk
    obtain ⟨k, hk, hmin⟩ := evictLoop_minimal c.max_bytes c.max_entries body.length
      c.entries c.size hacc
    refine ⟨k, ?_, ?_⟩
    · rw [heq]
      dsimp only
      rw [hk]
    · rw [heq]
      exact hmin

/-- C3 as amended: over any sequence of `put` calls on a cache with byte
ceiling `B` and entry ceiling `E ≥ 1`, after each call the total
resident bytes are at most `B` and the entry count at most `E`; a
single entry whose body exceeds a tenth of `B` leaves the cache
untouched; and an accepted insertion keeps exactly the most recently
accessed entries up to the ceilings: of the previous recency order
(after removing any old binding of the key) it keeps the longest
most-recent suffix whose bytes plus the new body fit within `B` and
whose count leaves room under `E` — every longer suffix violates a
ceiling — with the fresh entry appended at the most-recent end
(least-recently-used entries, at the front, are the ones evicted;
recency order breaks ties by insertion order). -/
theorem cache_put_bounds :
    (∀ (B E : Nat) (ops : List PutOp), 1 ≤ E →
        totalBytes (applyPuts ops (emptyCache B E)).entries ≤ B ∧
        (applyPuts ops (emptyCache B E)).entries.length ≤ E)
    ∧ (∀ (c : Cache) (url : Str) (st : Nat) (hs : List (Str × Str))
        (body : Str) (ttl now : Int), c.max_bytes / 10 < body.length →
        c.put url st hs body ttl now = c)
    ∧ (∀ (c : Cache) (url : Str) (st : Nat) (hs : List (Str × Str))
        (body : Str) (ttl now : Int), 0 < ttl → body.length ≤ c.max_bytes / 10 →
        c.size = totalBytes c.entries →
        ∃ k, (c.put url st hs body ttl now).entries
            = (removeC c.entries url).drop k ++ [(url, ⟨st, hs, body, now + ttl⟩)]
          ∧ ∀ j, j < k →
              totalBytes ((removeC c.entries url).drop j) + body.length > c.max_bytes
              ∨ ((removeC c.entries url).drop j).length ≥ c.max_entries) := by
  refine ⟨?_, ?_, ?_⟩
  · intro B E ops hE
    have hcfg := applyPuts_config ops (emptyCache B E)
    have hinv := @applyPuts_inv ops (emptyCache B E) hE (emptyCache_inv B E)
    obtain ⟨h1, h2, h3, h4⟩ := hinv
    rw [hcfg.1] at h2
    rw [hcfg.2] at h3
    exact ⟨h2, h3⟩
  · intro c url st hs body ttl now h
    exact put_oversize h
  · intro c url st hs body ttl now h1 h2 h3
    exact put_entries_minimal h1 h2 h3

/-- Witness for `cache_put_bounds` at concrete caches and insertions. -/
theorem cache_put_bounds_witness :
    (totalBytes (applyPuts [⟨"k".toList, 200, [], "abcd".toList, 60, 0⟩]
        (emptyCache 100 5)).entries ≤ 100
      ∧ (applyPuts [⟨"k".toList, 200, [], "abcd".toList, 60, 0⟩]
          (emptyCache 100 5)).entries.length ≤ 5)
    ∧ Cache.put (emptyCache 10 5) ("k".toList) 200 [] ("abc".toList) 60 0 = emptyCache 10 5
    ∧ ∃ k, (Cache.put (emptyCache 100 5) ("k".toList) 200 [] ("abcd".toList) 60 0).entries
          = (removeC (emptyCache 100 5).entries ("k".toList)).drop k ++
              [(("k".toList), ⟨200, [], "abcd".toList, (0 : Int) + 60⟩)]
        ∧ ∀ j, j < k →
            totalBytes ((removeC (emptyCache 100 5).entries ("k".toList)).drop j) +
                ("abcd".toList).length > (emptyCache 100 5).max_bytes
            ∨ ((removeC (emptyCache 100 5).entries ("k".toList)).drop j).length
                ≥ (emptyCache 100 5).max_entries :=
  ⟨cache_put_bounds.1 100 5 [⟨"k".toList, 200, [], "abcd".toList, 60, 0⟩] (by decide),
   cache_put_bounds.2.1 (emptyCache 10 5) ("k".toList) 200 [] ("abc".toList) 60 0 (by decide),
   cache_put_bounds.2.2 (emptyCache 100 5) ("k".toList) 200 [] ("abcd".toList) 60 0
     (by decide) (by decide) (by decide)⟩

/-- C3 counterexample: with entry ceiling `E = 0` a single accepted `put`
leaves one resident entry, exceeding the ceiling, so the bound claim
fails for caches with a zero entry ceiling. -/
theorem entry_ceiling_zero_violated :
    ¬ ((applyPuts [⟨"k".toList, 200, [], "ab".toList, 60, 0⟩]
        (emptyCache 100 0)).entries.length ≤ (emptyCache 100 0).max_entries) := by
  decide

/-- C4 as amended: `get` of a key never inserted by any `put` of a
sequence is absent; `get` of a key whose entry has expired
(`expiry ≤ now`) is absent; and a `put` whose body fits the cacheable
bound (`len(body) ≤ max_bytes / 10`), immediately followed by a `get`
of the same key before the TTL elapses, returns exactly the stored
`(status, headers, body)`. -/
theorem cache_get_put :
    (∀ (B E : Nat) (ops : List PutOp) (k : Str) (now : Int),
        (∀ op ∈ ops, op.url ≠ k) →
        ((applyPuts ops (emptyCache B E)).get k now).2 = none)
    ∧ (∀ (c : Cache) (k : Str) (now : Int) (e : CacheEntry),
        lookupC c.entries k = some e → e.expiry ≤ now →
        (c.get k now).2 = none)
    ∧ (∀ (c : Cache) (url : Str) (st : Nat) (hs : List (Str × Str))
        (body : Str) (ttl now nowq : Int),
        (keysC c.entries).Nodup → body.length ≤ c.max_bytes / 10 →
        now ≤ nowq → nowq < now + ttl →
        ((c.put url st hs body ttl now).get url nowq).2 = some (st, hs, body)) := by
  refine ⟨?_, ?_, ?_⟩
  · intro B E ops k now hall
    refine get_none_of_not_mem (applyPuts_not_mem ops ?_ hall)
    simp [emptyCache, keysC]
  · intro c k now e hlk hex
    exact get_none_of_expired hlk hex
  · intro c url st hs body ttl now nowq hnd hsz h1 h2
    exact get_after_put hnd hsz h1 h2

/-- Witness for `cache_get_put` at concrete caches and keys. -/
theorem cache_get_put_witness :
    ((applyPuts [⟨"a".toList, 200, [], "x".toList, 60, 0⟩]
        (emptyCache 100 5)).get ("k".toList) 0).2 = none
    ∧ ((⟨100, 5, [(("k".toList), ⟨200, [], "x".toList, 5⟩)], 1, 0, 0⟩ : Cache).get
        ("k".toList) 9).2 = none
    ∧ ((Cache.put (emptyCache 100 5) ("k".toList) 200 [] ("ab".toList) 60 0).get
        ("k".toList) 0).2 = some (200, [], "ab".toList) :=
  ⟨cache_get_put.1 100 5 [⟨"a".toList, 200, [], "x".toList, 60, 0⟩] ("k".toList) 0
     (by decide),
   cache_get_put.2.1 (⟨100, 5, [(("k".toList), ⟨200, [], "x".toList, 5⟩)], 1, 0, 0⟩ : Cache)
     ("k".toList) 9 ⟨200, [], "x".toList, 5⟩ (by decide) (by decide),
   cache_get_put.2.2 (emptyCache 100 5) ("k".toList) 200 [] ("ab".toList) 60 0 0
     (by decide) (by decide) (by decide) (by decide)⟩

/-- C4 counterexample: a `put` whose body exceeds a tenth of the byte
ceiling stores nothing, so the immediately following `get` (well before
the TTL elapses) does not return the stored triple. -/
theorem oversize_put_get_absent :
    ((Cache.put (emptyCache 10 5) ("k".toList) 200 [] ("abc".toList) 60 0).get
        ("k".toList) 0).2 ≠ some (200, [], "abc".toList) := by
  decide

/-- C8 as amended: the clearnet fetcher follows redirect statuses
301/302/303/307/308 for at most 5 hops; a hop is never followed when
the Location scheme is `https` (such a 3xx is returned to the client
unfollowed, with no hop recorded); every followed Location is
non-empty and non-https; a non-redirect response is returned directly
with no hops; when hops remain, a redirect with any other non-empty
Location whose port parses (`locPort = ok`) is followed over plain
HTTP: the Location is recorded as a hop and the loop continues on the
plain-HTTP fetch of the parsed host, port and path; and a redirect
whose Location carries an unparsable port raises (`locPort = error`),
aborting the fetch with no response and no hop (surfaced by the
handler as a 502). -/
theorem redirect_policy :
    (∀ (net : Net) (host : Str) (gas : Nat) (resp : NetResp),
        (followLoop net host gas resp).2.length ≤ gas)
    ∧ (∀ (net : Net) (host path : Str) (port : Option Nat) (pd : Option Str) (ho : Bool),
        (fetch_direct net host port path pd ho).2.length ≤ 5)
    ∧ (∀ (net : Net) (host : Str) (gas : Nat) (resp : NetResp) (l : Str),
        l ∈ (followLoop net host gas resp).2 →
        l ≠ [] ∧ (splitScheme l).1 ≠ httpsL)
    ∧ (∀ (net : Net) (host : Str) (gas : Nat) (resp : NetResp),
        redirectStatus resp.status = true →
        getHeaderD resp.headers locationKey ≠ [] →
        (splitScheme (getHeaderD resp.headers locationKey)).1 = httpsL →
        followLoop net host gas resp = (some resp, []))
    ∧ (∀ (net : Net) (host : Str) (gas : Nat) (resp : NetResp),
        redirectStatus resp.status = false →
        followLoop net host gas resp = (some resp, []))
    ∧ (∀ (net : Net) (host : Str) (gas : Nat) (resp : NetResp) (p : Option Nat),
        redirectStatus resp.status = true →
        getHeaderD resp.headers locationKey ≠ [] →
        (splitScheme (getHeaderD resp.headers locationKey)).1 ≠ httpsL →
        locPort (getHeaderD resp.headers locationKey) = .ok p →
        followLoop net host (gas + 1) resp =
          ((followLoop net host gas
              (net (redirHost host (getHeaderD resp.headers locationKey)) (orPort80 p)
                (redirPath (getHeaderD resp.headers locationKey)) ['G', 'E', 'T'])).1,
            getHeaderD resp.headers locationKey ::
              (followLoop net host gas
                (net (redirHost host (getHeaderD resp.headers locationKey)) (orPort80 p)
                  (redirPath (getHeaderD resp.headers locationKey)) ['G', 'E', 'T'])).2))
    ∧ (∀ (net : Net) (host : Str) (gas : Nat) (resp : NetResp),
        redirectStatus resp.status = true →
        getHeaderD resp.headers locationKey ≠ [] →
        (splitScheme (getHeaderD resp.headers locationKey)).1 ≠ httpsL →
        locPort (getHeaderD resp.headers locationKey) = .error () →
        followLoop net host (gas + 1) resp = (none, [])) := by
  have hlen : ∀ (net : Net) (host : Str) (gas : Nat) (resp : NetResp),
      (followLoop net host gas resp).2.length ≤ gas := by
    intro net host gas
    induction gas with
    | zero => intro resp; simp [followLoop]
    | succ gas ih =>
      intro resp
      unfold followLoop
      split
      · split
        · simp
        · split
          · simp
          · split
            · simp
            · simp only [List.length_cons]
              exact Nat.succ_le_succ (ih _)
      · simp
  have hmem : ∀ (net : Net) (host : Str) (gas : Nat) (resp : NetResp) (l : Str),
      l ∈ (followLoop net host gas resp).2 →
      l ≠ [] ∧ (splitScheme l).1 ≠ httpsL := by
    intro net host gas
    induction gas with
    | zero => intro resp l hl; simp [followLoop] at hl
    | succ gas ih =>
      intro resp l hl
      unfold followLoop at hl
      split at hl
      · split at hl
        · simp at hl
        · split at hl
          · simp at hl
          · split at hl
            · simp at hl
            · rename_i hp
              rename_i p
              rename_i hscrut
              rename_i hns
              rename_i hne
              simp only [List.mem_cons] at hl
              rcases hl with rfl | hl
              · exact ⟨hne, hns⟩
              · exact ih _ _ hl
      · simp at hl
  refine ⟨hlen, ?_, hmem, ?_, ?_, ?_, ?_⟩
  · intro net host path port pd ho
    exact hlen net host 5 _
  · intro net host gas resp hst hne hsch
    cases gas with
    | zero => rfl
    | succ gas =>
      unfold followLoop
      rw [if_pos hst, if_neg hne, if_pos hsch]
  · intro net host gas resp hst
    cases gas with
    | zero => rfl
    | succ gas =>
      unfold followLoop
      rw [if_neg (by simp [hst])]
  · intro net host gas resp p hst hne hsch hp
    conv_lhs => rw [followLoop]
    rw [if_pos hst, if_neg hne, if_neg hsch, hp]
  · intro net host gas resp hst hne hsch hp
    unfold followLoop
    rw [if_pos hst, if_neg hne, if_neg hsch, hp]


/-- A scripted network whose `/a` resource redirects to an `ftp://`
Location. -/
def ftpNet : Net := fun _ _ pa _ =>
  if pa = ("/a".toList) then ⟨302, [(locationKey, ("ftp://h2/b".toList))], []⟩
  else ⟨200, [], ("ok".toList)⟩

/-- C8 counterexample: a 302 whose Location is `ftp://h2/b` (scheme
`ftp`, not plain HTTP) is nevertheless followed as a hop, refuting the
claim that a hop is followed only when the target is plain HTTP. -/
theorem redirect_follows_non_http :
    (fetch_direct ftpNet ("h".toList) none ("/a".toList) none false).2
        = [("ftp://h2/b".toList)]
    ∧ (splitScheme ("ftp://h2/b".toList)).1 = ("ftp".toList)
    ∧ ("ftp".toList) ≠ ("http".toList)
    ∧ (fetch_direct ftpNet ("h".toList) none ("/a".toList) none false).1
        = some ⟨200, [], ("ok".toList)⟩ := by
  decide

/-- Witness for `redirect_policy` at scripted networks, exercising the
hop bound, the hop facts, the https stop, the followed hop and the
unparsable-port abort. -/
theorem redirect_policy_witness :
    (fetch_direct ftpNet ("h".toList) none ("/x".toList) none false).2.length ≤ 5
    ∧ (("ftp://h2/b".toList) ≠ [] ∧
        (splitScheme ("ftp://h2/b".toList)).1 ≠ httpsL)
    ∧ followLoop ftpNet ("h".toList) 5 ⟨301, [(locationKey, ("https://x/y".toList))], []⟩
        = (some ⟨301, [(locationKey, ("https://x/y".toList))], []⟩, [])
    ∧ followLoop ftpNet ("h".toList) 5 ⟨302, [(locationKey, ("ftp://h2/b".toList))], []⟩
        = ((followLoop ftpNet ("h".toList) 4
              (ftpNet (redirHost ("h".toList) ("ftp://h2/b".toList)) (orPort80 none)
                (redirPath ("ftp://h2/b".toList)) ['G', 'E', 'T'])).1,
            ("ftp://h2/b".toList) ::
              (followLoop ftpNet ("h".toList) 4
                (ftpNet (redirHost ("h".toList) ("ftp://h2/b".toList)) (orPort80 none)
                  (redirPath ("ftp://h2/b".toList)) ['G', 'E', 'T'])).2)
    ∧ followLoop ftpNet ("h".toList) 5 ⟨302, [(locationKey, ("http://h:x/b".toList))], []⟩
        = (none, []) :=
  ⟨redirect_policy.2.1 ftpNet ("h".toList) ("/x".toList) none none false,
   redirect_policy.2.2.1 ftpNet ("h".toList) 5
     ⟨302, [(locationKey, ("ftp://h2/b".toList))], []⟩ ("ftp://h2/b".toList) (by decide),
   redirect_policy.2.2.2.1 ftpNet ("h".toList) 5
     ⟨301, [(locationKey, ("https://x/y".toList))], []⟩ (by decide) (by decide) (by decide),
   redirect_policy.2.2.2.2.2.1 ftpNet ("h".toList) 4
     ⟨302, [(locationKey, ("ftp://h2/b".toList))], []⟩ none
     (by decide) (by decide) (by decide) (by decide),
   redirect_policy.2.2.2.2.2.2 ftpNet ("h".toList) 4
     ⟨302, [(locationKey, ("http://h:x/b".toList))], []⟩
     (by decide) (by decide) (by decide) (by decide)⟩

/-- C6: the path-based rewrite is not idempotent.  For an absolute onion
URL whose path embeds a second absolute onion URL, the first pass
rewrites only the outer URL (the inner one sits inside the consumed
match), and the second pass then rewrites the surviving inner URL, so
applying the rewrite twice differs from applying it once. -/
theorem rewrite_links_not_idempotent :
    rewrite_onion_links ("aaaaaaaaaaaaaaaa.onion".toList)
        ("http://aaaaaaaaaaaaaaaa.onion/q=http://bbbbbbbbbbbbbbbb.onion".toList)
      = ("/proxy/aaaaaaaaaaaaaaaa.onion/q=http://bbbbbbbbbbbbbbbb.onion".toList)
    ∧ rewrite_onion_links ("aaaaaaaaaaaaaaaa.onion".toList)
        ("/proxy/aaaaaaaaaaaaaaaa.onion/q=http://bbbbbbbbbbbbbbbb.onion".toList)
      = ("/proxy/aaaaaaaaaaaaaaaa.onion/q=/proxy/bbbbbbbbbbbbbbbb.onion".toList)
    ∧ rewrite_onion_links ("aaaaaaaaaaaaaaaa.onion".toList)
        (rewrite_onion_links ("aaaaaaaaaaaaaaaa.onion".toList)
          ("http://aaaaaaaaaaaaaaaa.onion/q=http://bbbbbbbbbbbbbbbb.onion".toList))
      ≠ rewrite_onion_links ("aaaaaaaaaaaaaaaa.onion".toList)
          ("http://aaaaaaaaaaaaaaaa.onion/q=http://bbbbbbbbbbbbbbbb.onion".toList) := by
  decide

/-- C7 counterexample: the host `exampleaddr1234.onion` has a final label
of only 15 characters, while `HTTPS_ONION_RE` requires 16 to 56, so the
body from the claim is returned unchanged rather than downgraded to
`http://`. -/
theorem downgrade_example_host_not_rewritten :
    downgrade_https_onion ("https://exampleaddr1234.onion/x".toList)
        = ("https://exampleaddr1234.onion/x".toList)
    ∧ downgrade_https_onion ("https://exampleaddr1234.onion/x".toList)
        ≠ ("http://exampleaddr1234.onion/x".toList) := by
  decide

theorem chain_assoc (a b c : Option Str) :
    (match (match a with | some r => some r | none => b) with
      | some r => some r
      | none => c)
    = (match a with
       | some r => some r
       | none => (match b with | some r => some r | none => c)) := by
  cases a <;> rfl

theorem descend_under (k : Str → Option Str) (xs ys : Str) (lo : Nat) :
    ∀ j, j < lo → descend k xs ys lo j = none := by
  intro j
  induction j with
  | zero =>
    intro h
    unfold descend
    rw [if_neg (by omega)]
  | succ j ih =>
    intro h
    unfold descend
    rw [if_pos h]

theorem descend_cons (k : Str → Option Str) (x : Char) (xs ys : Str) (lo : Nat) :
    ∀ j, (match descend k xs ys (lo - 1) j with
           | some r => some r
           | none => if lo = 0 then k (x :: (xs ++ ys)) else none)
      = descend k (x :: xs) ys lo (j + 1) := by
  intro j
  induction j with
  | zero =>
    by_cases h0 : lo = 0
    · subst h0
      simp [descend]
    · by_cases h1 : lo = 1
      · subst h1
        simp [descend]
      · simp [descend, show ¬ lo - 1 = 0 by omega, h0, show 1 < lo by omega]
  | succ j ih =>
    by_cases hguard : j + 2 < lo
    · rw [descend_under k (x :: xs) ys lo (j + 2) hguard,
        descend_under k xs ys (lo - 1) (j + 1) (by omega)]
      rw [if_neg (show ¬ lo = 0 by omega)]
    · conv_rhs => rw [descend]
      rw [if_neg hguard]
      conv_lhs => rw [descend]
      rw [if_neg (show ¬ j + 1 < lo - 1 by omega)]
      rw [chain_assoc]
      have hdrop : (x :: xs).drop (j + 1 + 1) = xs.drop (j + 1) := rfl
      rw [hdrop, ih]

theorem descend_all_none (k : Str → Option Str) (xs ys : Str) (lo : Nat) :
    ∀ j, (∀ i, i ≤ j → k (xs.drop i ++ ys) = none) →
      descend k xs ys lo j = none := by
  intro j
  induction j with
  | zero =>
    intro hfail
    unfold descend
    split
    · simpa using hfail 0 (by omega)
    · rfl
  | succ j ih =>
    intro hfail
    unfold descend
    split
    · rfl
    · rw [hfail (j + 1) (by omega)]
      exact ih (fun i h => hfail i (by omega))

theorem rep_cls_run (p : Char → Bool) :
    ∀ (xs : Str) (lo hi : Nat) (ys : Str) (k : Str → Option Str),
      (∀ c ∈ xs, p c = true) → headNotP p ys → xs.length ≤ hi →
      reMatch (.rep (.cls p) lo hi) (xs ++ ys) k = descend k xs ys lo xs.length := by
  intro xs
  induction xs with
  | nil =>
    intro lo hi ys k _ hys _
    cases hi with
    | zero =>
      show repIter _ lo 0 ys k = _
      unfold repIter descend
      rfl
    | succ hi =>
      show repIter _ lo (hi + 1) ys k = _
      unfold repIter
      have hcls : reMatch (.cls p) ys
          (fun r => repIter (fun cs2 k2 => reMatch (.cls p) cs2 k2) (lo - 1) hi r k) = none := by
        cases ys with
        | nil => rfl
        | cons c t =>
          unfold headNotP at hys
          unfold reMatch
          rw [if_neg (by simp [hys])]
      rw [hcls]
      unfold descend
      rfl
  | cons x xs2 ih =>
    intro lo hi ys k hall hys hhi
    cases hi with
    | zero => simp at hhi
    | succ hi =>
      show repIter _ lo (hi + 1) (x :: xs2 ++ ys) k = _
      unfold repIter
      have hx : p x = true := hall x (List.mem_cons_self _ _)
      have hstep : reMatch (.cls p) (x :: (xs2 ++ ys))
          (fun r => repIter (fun cs2 k2 => reMatch (.cls p) cs2 k2) (lo - 1) hi r k)
          = repIter (fun cs2 k2 => reMatch (.cls p) cs2 k2) (lo - 1) hi (xs2 ++ ys) k := by
        simp only [reMatch, hx, if_true]
      rw [show (x :: xs2 ++ ys) = x :: (xs2 ++ ys) from rfl, hstep]
      have hih : repIter (fun cs2 k2 => reMatch (.cls p) cs2 k2) (lo - 1) hi (xs2 ++ ys) k
          = descend k xs2 ys (lo - 1) xs2.length :=
        ih (lo - 1) hi ys k (fun c hc => hall c (List.mem_cons_of_mem _ hc)) hys
          (by simpa using Nat.le_of_succ_le_succ hhi)
      rw [hih]
      have hc := descend_cons k x xs2 ys lo xs2.length
      simpa using hc

theorem drop_lt_cons {α : Type} (xs : List α) :
    ∀ i, i < xs.length → ∃ d ds, xs.drop i = d :: ds ∧ d ∈ xs := by
  induction xs with
  | nil => intro i h; simp at h
  | cons x t ih =>
    intro i h
    cases i with
    | zero => exact ⟨x, t, rfl, List.mem_cons_self _ _⟩
    | succ i =>
      obtain ⟨d, ds, hd, hm⟩ := ih i (by simpa using Nat.lt_of_succ_lt_succ h)
      exact ⟨d, ds, hd, List.mem_cons_of_mem _ hm⟩

theorem descend_hit (k : Str → Option Str) (xs ys : Str) (lo j : Nat) (r : Str)
    (hlo : lo ≤ j) (hk : k (xs.drop j ++ ys) = some r) :
    descend k xs ys lo j = some r := by
  cases j with
  | zero =>
    unfold descend
    rw [if_pos (by omega)]
    simpa using hk
  | succ j =>
    unfold descend
    rw [if_neg (by omega), hk]

theorem descend_top (k : Str → Option Str) (xs ys : Str) (lo j : Nat)
    (hlo : lo ≤ j) (hfail : ∀ i, i < j → k (xs.drop i ++ ys) = none) :
    descend k xs ys lo j = k (xs.drop j ++ ys) := by
  cases j with
  | zero =>
    unfold descend
    rw [if_pos (by omega)]
    simp
  | succ j =>
    unfold descend
    rw [if_neg (by omega)]
    cases hk : k (xs.drop (j + 1) ++ ys) with
    | some r => rfl
    | none =>
      rw [descend_all_none k xs ys lo j (fun i h => hfail i (by omega))]

theorem litCI_self : ∀ (lit rest : Str) (k : Str → Option Str),
    reMatch (litCI lit) (lit ++ rest) k = k rest := by
  intro lit
  induction lit with
  | nil => intro rest k; rfl
  | cons c cs ih =>
    intro rest k
    show reMatch (.seq (.cls (ciEq c)) (litCI cs)) (c :: (cs ++ rest)) k = k rest
    simp only [reMatch]
    rw [if_pos (by simp [ciEq])]
    exact ih rest k

theorem labelChar_not_dot (c : Char) (h : isLabelChar c = true) : ¬ (c = '.') := by
  intro heq
  subst heq
  exact absurd h (by decide)

theorem alnum_labelChar (c : Char) (h : isAlnumCI c = true) : isLabelChar c = true := by
  simp [isLabelChar, h]

theorem G_step (n : Nat) (l tail : Str) (κ : Str → Option Str)
    (hne : l ≠ []) (hall : ∀ c ∈ l, isLabelChar c = true) (hlen : l.length ≤ n + 1) :
    reMatch (.seq (plusN n (.cls isLabelChar)) (.cls (fun c => c = '.')))
      (l ++ '.' :: tail) κ = κ tail := by
  cases l with
  | nil => exact absurd rfl hne
  | cons c l2 =>
    simp only [plusN, reMatch]
    rw [if_pos (hall c (List.mem_cons_self _ _))]
    have hrun := rep_cls_run isLabelChar l2 0 n ('.' :: tail)
      (fun r => reMatch (.cls (fun c => c = '.')) r κ)
      (fun d hd => hall d (List.mem_cons_of_mem _ hd))
      (by show isLabelChar '.' = false; decide)
      (by simpa using Nat.le_of_succ_le_succ hlen)
    show repIter (fun cs2 k2 => reMatch (.cls isLabelChar) cs2 k2) 0 n
        (l2 ++ '.' :: tail) (fun r => reMatch (.cls (fun c => c = '.')) r κ) = κ tail
    have hrun2 : repIter (fun cs2 k2 => reMatch (.cls isLabelChar) cs2 k2) 0 n
        (l2 ++ '.' :: tail) (fun r => reMatch (.cls (fun c => c = '.')) r κ)
        = descend (fun r => reMatch (.cls (fun c => c = '.')) r κ) l2 ('.' :: tail) 0 l2.length :=
      hrun
    rw [hrun2]
    rw [descend_top _ l2 ('.' :: tail) 0 l2.length (by omega) ?hfail]
    · simp [reMatch]
    case hfail =>
      intro i hi
      obtain ⟨d, ds, hd, hm⟩ := drop_lt_cons l2 i hi
      rw [hd]
      show reMatch (.cls (fun c => c = '.')) (d :: (ds ++ '.' :: tail)) κ = none
      simp only [reMatch]
      rw [if_neg (by simpa using labelChar_not_dot d (hall d (List.mem_cons_of_mem _ hm)))]

theorem not_labelChar_not_alnum (c : Char) (h : isLabelChar c = false) :
    isAlnumCI c = false := by
  by_contra hne
  have hA : isAlnumCI c = true := by
    cases hA : isAlnumCI c
    · exact absurd hA hne
    · rfl
  rw [alnum_labelChar c hA] at h
  exact Bool.noConfusion h

theorem headNotP_of_delim (rest : Str) (h : delim rest) : headNotP isLabelChar rest := by
  cases rest with
  | nil => trivial
  | cons c t => exact h.1

theorem headNotP_alnum_of_delim (rest : Str) (h : delim rest) : headNotP isAlnumCI rest := by
  cases rest with
  | nil => trivial
  | cons c t => exact not_labelChar_not_alnum c h.1

theorem FL_run (f rest : Str) (k0 : Str → Option Str) (r0 : Str)
    (hf1 : 16 ≤ f.length) (hf2 : f.length ≤ 56)
    (hfall : ∀ c ∈ f, isAlnumCI c = true)
    (hk : k0 rest = some r0) :
    reMatch FOre (f ++ (onionSuf ++ rest)) k0 = some r0 := by
  show repIter (fun cs2 k2 => reMatch (.cls isAlnumCI) cs2 k2) 16 56
      (f ++ (onionSuf ++ rest)) (fun r => reMatch (litCI (".onion".toList)) r k0) = some r0
  have hrun : repIter (fun cs2 k2 => reMatch (.cls isAlnumCI) cs2 k2) 16 56
      (f ++ (onionSuf ++ rest)) (fun r => reMatch (litCI (".onion".toList)) r k0)
      = descend (fun r => reMatch (litCI (".onion".toList)) r k0) f (onionSuf ++ rest) 16 f.length :=
    rep_cls_run isAlnumCI f 16 56 (onionSuf ++ rest) _ hfall
      (show isAlnumCI '.' = false by decide) hf2
  rw [hrun]
  refine descend_hit _ f (onionSuf ++ rest) 16 f.length r0 hf1 ?_
  rw [List.drop_length, List.nil_append]
  have honion : onionSuf ++ rest = ".onion".toList ++ rest := rfl
  rw [honion, litCI_self, hk]

theorem G_fail_onions (n : Nat) (rest : Str) (κ : Str → Option Str)
    (hn : 4 ≤ n) (hrest : delim rest) :
    reMatch (Gre n) ("onion".toList ++ rest) κ = none := by
  have hall4 : ∀ c ∈ "nion".toList, isLabelChar c = true := by decide
  have h4 : ("nion".toList).length = 4 := by decide
  show reMatch (.seq (plusN n (.cls isLabelChar)) (.cls (fun c => c = '.')))
      ('o' :: ("nion".toList ++ rest)) κ = none
  simp only [plusN, reMatch]
  rw [if_pos (show isLabelChar 'o' = true by decide)]
  have hrun : repIter (fun cs2 k2 => reMatch (.cls isLabelChar) cs2 k2) 0 n
      ("nion".toList ++ rest) (fun r => reMatch (.cls (fun c => c = '.')) r κ)
      = descend (fun r => reMatch (.cls (fun c => c = '.')) r κ) ("nion".toList) rest 0 ("nion".toList).length :=
    rep_cls_run isLabelChar ("nion".toList) 0 n rest _
      hall4 (headNotP_of_delim rest hrest) (by omega)
  show repIter (fun cs2 k2 => reMatch (.cls isLabelChar) cs2 k2) 0 n
      ("nion".toList ++ rest) (fun r => reMatch (.cls (fun c => c = '.')) r κ) = none
  rw [hrun]
  refine descend_all_none _ _ _ _ _ ?_
  intro i hi
  by_cases hlt : i < ("nion".toList).length
  · obtain ⟨d, ds, hd, hm⟩ := drop_lt_cons ("nion".toList) i hlt
    rw [hd]
    show reMatch (.cls (fun c => c = '.')) (d :: (ds ++ rest)) κ = none
    simp only [reMatch]
    rw [if_neg (by simpa using labelChar_not_dot d (hall4 d hm))]
  · have hi4 : i = ("nion".toList).length := by omega
    rw [hi4, List.drop_length, List.nil_append]
    cases rest with
    | nil => rfl
    | cons c t =>
      show reMatch (.cls (fun c => c = '.')) (c :: t) κ = none
      simp only [reMatch]
      rw [if_neg (by simpa using hrest.2)]

theorem FO_fail_onions (rest : Str) (k0 : Str → Option Str) (hrest : delim rest) :
    reMatch FOre ("onion".toList ++ rest) k0 = none := by
  show repIter (fun cs2 k2 => reMatch (.cls isAlnumCI) cs2 k2) 16 56
      ("onion".toList ++ rest) (fun r => reMatch (litCI (".onion".toList)) r k0) = none
  have hrun : repIter (fun cs2 k2 => reMatch (.cls isAlnumCI) cs2 k2) 16 56
      ("onion".toList ++ rest) (fun r => reMatch (litCI (".onion".toList)) r k0)
      = descend (fun r => reMatch (litCI (".onion".toList)) r k0) ("onion".toList) rest 16 ("onion".toList).length :=
    rep_cls_run isAlnumCI ("onion".toList) 16 56 rest _
      (by decide) (headNotP_alnum_of_delim rest hrest) (by decide)
  rw [hrun]
  exact descend_under _ _ _ _ _ (by decide)

theorem onions_rep_none (n : Nat) (rest : Str) (k0 : Str → Option Str)
    (hn : 4 ≤ n) (hrest : delim rest) :
    ∀ b, repIter (fun cs2 k2 => reMatch (Gre n) cs2 k2) 0 b
      ("onion".toList ++ rest) (fun r => reMatch FOre r k0) = none := by
  intro b
  induction b with
  | zero =>
    show (if 0 = 0 then reMatch FOre ("onion".toList ++ rest) k0 else none) = none
    rw [if_pos rfl]
    exact FO_fail_onions rest k0 hrest
  | succ b ih =>
    show (match reMatch (Gre n) ("onion".toList ++ rest) _ with
          | some r => some r
          | none => if 0 = 0 then reMatch FOre ("onion".toList ++ rest) k0 else none) = none
    rw [G_fail_onions n rest _ hn hrest]
    rw [if_pos rfl]
    exact FO_fail_onions rest k0 hrest

theorem star_at_f (n : Nat) (f rest : Str) (k0 : Str → Option Str) (r0 : Str)
    (hf1 : 16 ≤ f.length) (hf2 : f.length ≤ 56)
    (hfall : ∀ c ∈ f, isAlnumCI c = true)
    (hfn : f.length ≤ n + 1) (hn : 4 ≤ n) (hrest : delim rest)
    (hk : k0 rest = some r0) :
    ∀ b, repIter (fun cs2 k2 => reMatch (Gre n) cs2 k2) 0 b
      (f ++ (onionSuf ++ rest)) (fun r => reMatch FOre r k0) = some r0 := by
  intro b
  induction b with
  | zero =>
    show (if 0 = 0 then reMatch FOre (f ++ (onionSuf ++ rest)) k0 else none) = some r0
    rw [if_pos rfl]
    exact FL_run f rest k0 r0 hf1 hf2 hfall hk
  | succ b ih =>
    show (match reMatch (Gre n) (f ++ (onionSuf ++ rest)) _ with
          | some r => some r
          | none => if 0 = 0 then reMatch FOre (f ++ (onionSuf ++ rest)) k0 else none) = some r0
    have hsplit : f ++ (onionSuf ++ rest) = f ++ '.' :: ("onion".toList ++ rest) := rfl
    have hgstep := G_step n f ("onion".toList ++ rest)
      (fun r => repIter (fun cs2 k2 => reMatch (Gre n) cs2 k2) 0 b r (fun r => reMatch FOre r k0))
      (by intro hnil; rw [hnil] at hf1; simp at hf1)
      (fun c hc => alnum_labelChar c (hfall c hc)) hfn
    rw [hsplit]
    have hGre : reMatch (Gre n) (f ++ '.' :: ("onion".toList ++ rest))
        (fun r => repIter (fun cs2 k2 => reMatch (Gre n) cs2 k2) 0 b r (fun r => reMatch FOre r k0))
        = repIter (fun cs2 k2 => reMatch (Gre n) cs2 k2) 0 b
            ("onion".toList ++ rest) (fun r => reMatch FOre r k0) := hgstep
    rw [hGre, onions_rep_none n rest k0 hn hrest b]
    rw [if_pos rfl]
    have hback : f ++ '.' :: ("onion".toList ++ rest) = f ++ (onionSuf ++ rest) := rfl
    rw [hback]
    exact FL_run f rest k0 r0 hf1 hf2 hfall hk

theorem star_run (n : Nat) (k0 : Str → Option Str) (r0 f rest : Str)
    (hf1 : 16 ≤ f.length) (hf2 : f.length ≤ 56)
    (hfall : ∀ c ∈ f, isAlnumCI c = true)
    (hfn : f.length ≤ n + 1) (hn : 4 ≤ n) (hrest : delim rest)
    (hk : k0 rest = some r0) :
    ∀ (labels : List Str) (b : Nat), labels.length ≤ b →
      (∀ l ∈ labels, l ≠ [] ∧ (∀ c ∈ l, isLabelChar c = true) ∧ l.length ≤ n + 1) →
      repIter (fun cs2 k2 => reMatch (Gre n) cs2 k2) 0 b
        (lpart labels ++ (f ++ (onionSuf ++ rest))) (fun r => reMatch FOre r k0) = some r0 := by
  intro labels
  induction labels with
  | nil =>
    intro b _ _
    have h0 : lpart [] ++ (f ++ (onionSuf ++ rest)) = f ++ (onionSuf ++ rest) := by
      simp [lpart]
    rw [h0]
    exact star_at_f n f rest k0 r0 hf1 hf2 hfall hfn hn hrest hk b
  | cons l ls ih =>
    intro b hb hlab
    cases b with
    | zero => simp at hb
    | succ b =>
      show (match reMatch (Gre n) (lpart (l :: ls) ++ (f ++ (onionSuf ++ rest))) _ with
            | some r => some r
            | none => if 0 = 0 then reMatch FOre (lpart (l :: ls) ++ (f ++ (onionSuf ++ rest))) k0 else none)
          = some r0
      have hsplit : lpart (l :: ls) ++ (f ++ (onionSuf ++ rest))
          = l ++ '.' :: (lpart ls ++ (f ++ (onionSuf ++ rest))) := by
        simp [lpart]
      have hgstep := G_step n l (lpart ls ++ (f ++ (onionSuf ++ rest)))
        (fun r => repIter (fun cs2 k2 => reMatch (Gre n) cs2 k2) 0 b r (fun r => reMatch FOre r k0))
        (hlab l (List.mem_cons_self _ _)).1
        (hlab l (List.mem_cons_self _ _)).2.1
        (hlab l (List.mem_cons_self _ _)).2.2
      rw [hsplit]
      have hGre : reMatch (Gre n) (l ++ '.' :: (lpart ls ++ (f ++ (onionSuf ++ rest))))
          (fun r => repIter (fun cs2 k2 => reMatch (Gre n) cs2 k2) 0 b r (fun r => reMatch FOre r k0))
          = repIter (fun cs2 k2 => reMatch (Gre n) cs2 k2) 0 b
              (lpart ls ++ (f ++ (onionSuf ++ rest))) (fun r => reMatch FOre r k0) := hgstep
      rw [hGre, ih b (by simpa using Nat.le_of_succ_le_succ hb)
        (fun x hx => hlab x (List.mem_cons_of_mem _ hx))]

theorem repIter_sound (ma : Str → (Str → Option Str) → Option Str)
    (hma : ∀ cs k r, ma cs k = some r → ∃ s, s <:+ cs ∧ k s = some r) :
    ∀ (hi lo : Nat) (cs : Str) (k : Str → Option Str) (r : Str),
      repIter ma lo hi cs k = some r → ∃ s, s <:+ cs ∧ k s = some r := by
  intro hi
  induction hi with
  | zero =>
    intro lo cs k r h
    unfold repIter at h
    split at h
    · exact ⟨cs, List.suffix_refl cs, h⟩
    · exact Option.noConfusion h
  | succ hi ih =>
    intro lo cs k r h
    unfold repIter at h
    cases hres : ma cs (fun r => repIter ma (lo - 1) hi r k) with
    | some r2 =>
      rw [hres] at h
      simp only [] at h
      obtain ⟨s, hs, hrec⟩ := hma cs _ r2 hres
      obtain ⟨s2, hs2, hk⟩ := ih (lo - 1) s k r2 hrec
      cases h
      exact ⟨s2, hs2.trans hs, hk⟩
    | none =>
      rw [hres] at h
      simp only [] at h
      split at h
      · exact ⟨cs, List.suffix_refl cs, h⟩
      · exact Option.noConfusion h

theorem reMatch_sound : ∀ (re : RE) (cs : Str) (k : Str → Option Str) (r : Str),
    reMatch re cs k = some r → ∃ s, s <:+ cs ∧ k s = some r := by
  intro re
  induction re with
  | eps =>
    intro cs k r h
    exact ⟨cs, List.suffix_refl cs, h⟩
  | cls p =>
    intro cs k r h
    cases cs with
    | nil => exact Option.noConfusion h
    | cons c cs2 =>
      unfold reMatch at h
      split at h
      · exact ⟨cs2, List.suffix_cons c cs2, h⟩
      · exact Option.noConfusion h
  | seq a b iha ihb =>
    intro cs k r h
    unfold reMatch at h
    obtain ⟨s, hs, hb⟩ := iha cs _ r h
    obtain ⟨s2, hs2, hk⟩ := ihb s k r hb
    exact ⟨s2, hs2.trans hs, hk⟩
  | alt a b iha ihb =>
    intro cs k r h
    unfold reMatch at h
    cases hres : reMatch a cs k with
    | some r2 =>
      rw [hres] at h
      simp only [] at h
      cases h
      exact iha cs k _ hres
    | none =>
      rw [hres] at h
      simp only [] at h
      exact ihb cs k r h
  | rep a lo hi iha =>
    intro cs k r h
    unfold reMatch at h
    exact repIter_sound _ (fun cs2 k2 r2 h2 => iha cs2 k2 r2 h2) hi lo cs k r h
  | opt a iha =>
    intro cs k r h
    unfold reMatch at h
    cases hres : reMatch a cs k with
    | some r2 =>
      rw [hres] at h
      simp only [] at h
      cases h
      exact iha cs k _ hres
    | none =>
      rw [hres] at h
      simp only [] at h
      exact ⟨cs, List.suffix_refl cs, h⟩
  | nla a iha =>
    intro cs k r h
    unfold reMatch at h
    cases hres : reMatch a cs (fun r => some r) with
    | some r2 =>
      rw [hres] at h
      exact Option.noConfusion h
    | none =>
      rw [hres] at h
      simp only [] at h
      exact ⟨cs, List.suffix_refl cs, h⟩

theorem tryAt_decomp (re : RE) (cs m rest : Str)
    (h : tryAt re cs = some (m, rest)) : m ++ rest = cs := by
  unfold tryAt at h
  cases hres : reMatch re cs (fun r => some r) with
  | none =>
    rw [hres] at h
    exact Option.noConfusion h
  | some r =>
    rw [hres] at h
    simp only [Option.some.injEq, Prod.mk.injEq] at h
    obtain ⟨hm, hrest⟩ := h
    obtain ⟨s, hs, hk⟩ := reMatch_sound re cs _ r hres
    have hsr : s = r := by
      simpa using hk
    obtain ⟨t, ht⟩ := hs
    have hrs : rest = s := by
      rw [← hrest]
      exact hsr.symm
    rw [← hm, hrs, ← ht, List.length_append, ← hsr, Nat.add_sub_cancel, List.take_left]

theorem scanSub_fuel (mk : Nat → RE) (repl : Str → Str) :
    ∀ (f g : Nat) (cs : Str), cs.length ≤ f → cs.length ≤ g →
      scanSub mk repl f cs = scanSub mk repl g cs := by
  intro f
  induction f with
  | zero =>
    intro g cs hf _
    have : cs = [] := by
      cases cs with
      | nil => rfl
      | cons c t => simp at hf
    subst this
    cases g <;> rfl
  | succ f ih =>
    intro g cs hf hg
    cases cs with
    | nil =>
      cases g <;> rfl
    | cons c cs2 =>
      cases g with
      | zero => simp at hg
      | succ g =>
        show (match tryAt (mk (cs2.length + 2)) (c :: cs2) with
              | none => c :: scanSub mk repl f cs2
              | some (m, rest) =>
                if m = [] then repl [] ++ c :: scanSub mk repl f cs2
                else repl m ++ scanSub mk repl f rest)
            = (match tryAt (mk (cs2.length + 2)) (c :: cs2) with
              | none => c :: scanSub mk repl g cs2
              | some (m, rest) =>
                if m = [] then repl [] ++ c :: scanSub mk repl g cs2
                else repl m ++ scanSub mk repl g rest)
        have hf2 : cs2.length ≤ f := by simpa using Nat.le_of_succ_le_succ hf
        have hg2 : cs2.length ≤ g := by simpa using Nat.le_of_succ_le_succ hg
        cases htry : tryAt (mk (cs2.length + 2)) (c :: cs2) with
        | none => rw [ih g cs2 hf2 hg2]
        | some p =>
          obtain ⟨m, rest⟩ := p
          show (if m = [] then repl [] ++ c :: scanSub mk repl f cs2
                else repl m ++ scanSub mk repl f rest)
              = (if m = [] then repl [] ++ c :: scanSub mk repl g cs2
                else repl m ++ scanSub mk repl g rest)
          by_cases hm : m = []
          · rw [if_pos hm, if_pos hm, ih g cs2 hf2 hg2]
          · have hdec := tryAt_decomp _ _ _ _ htry
            have hmlen : 1 ≤ m.length := by
              cases m with
              | nil => exact absurd rfl hm
              | cons a b => simp
            have hrlen : rest.length ≤ cs2.length := by
              have hsum : m.length + rest.length = cs2.length + 1 := by
                rw [← List.length_append, hdec]
                simp
              omega
            rw [if_neg hm, if_neg hm, ih g rest (by omega) (by omega)]

theorem lpart_mem_le (labels : List Str) :
    ∀ l ∈ labels, l.length + 1 ≤ (lpart labels).length := by
  induction labels with
  | nil => intro l hl; simp at hl
  | cons x ls ih =>
    intro l hl
    have hlen : (lpart (x :: ls)).length = x.length + 1 + (lpart ls).length := by
      simp [lpart]
      omega
    cases hl with
    | head => omega
    | tail _ hm =>
      have := ih l hm
      omega

theorem labels_len_le (labels : List Str) :
    labels.length ≤ (lpart labels).length := by
  induction labels with
  | nil => simp [lpart]
  | cons x ls ih =>
    have hlen : (lpart (x :: ls)).length = x.length + 1 + (lpart ls).length := by
      simp [lpart]
      omega
    simp only [List.length_cons]
    omega

theorem hostRE_run (n : Nat) (labels : List Str) (f rest : Str)
    (k0 : Str → Option Str) (r0 : Str)
    (hlab : labelsOk labels) (hlabn : ∀ l ∈ labels, l.length ≤ n + 1)
    (hb : labels.length ≤ n)
    (hf : finalOk f) (hfn : f.length ≤ n + 1) (hn : 4 ≤ n) (hrest : delim rest)
    (hk : k0 rest = some r0) :
    reMatch (hostRE n) (lpart labels ++ (f ++ (onionSuf ++ rest))) k0 = some r0 := by
  show repIter (fun cs2 k2 => reMatch (Gre n) cs2 k2) 0 n
      (lpart labels ++ (f ++ (onionSuf ++ rest))) (fun r => reMatch FOre r k0) = some r0
  exact star_run n k0 r0 f rest hf.1 hf.2.1 hf.2.2 hfn hn hrest hk labels n hb
    (fun l hl => ⟨(hlab l hl).1, (hlab l hl).2, hlabn l hl⟩)

theorem https_re_match (n : Nat) (labels : List Str) (f rest : Str)
    (hlab : labelsOk labels) (hlabn : ∀ l ∈ labels, l.length ≤ n + 1)
    (hb : labels.length ≤ n)
    (hf : finalOk f) (hfn : f.length ≤ n + 1) (hn : 4 ≤ n) (hrest : delim rest) :
    reMatch (HTTPS_ONION_RE n)
      (httpsPre ++ (lpart labels ++ (f ++ (onionSuf ++ rest))))
      (fun r => some r) = some rest := by
  show reMatch (litCI ("https://".toList))
      ("https://".toList ++ (lpart labels ++ (f ++ (onionSuf ++ rest))))
      (fun r => reMatch (hostRE n) r (fun r => some r)) = some rest
  rw [litCI_self]
  exact hostRE_run n labels f rest (fun r => some r) rest hlab hlabn hb hf hfn hn hrest rfl

theorem tryAt_https (n : Nat) (labels : List Str) (f rest : Str)
    (hlab : labelsOk labels) (hlabn : ∀ l ∈ labels, l.length ≤ n + 1)
    (hb : labels.length ≤ n)
    (hf : finalOk f) (hfn : f.length ≤ n + 1) (hn : 4 ≤ n) (hrest : delim rest) :
    tryAt (HTTPS_ONION_RE n)
      (httpsPre ++ (lpart labels ++ (f ++ (onionSuf ++ rest))))
      = some (httpsPre ++ (lpart labels ++ (f ++ onionSuf)), rest) := by
  unfold tryAt
  rw [https_re_match n labels f rest hlab hlabn hb hf hfn hn hrest]
  have hMrest : httpsPre ++ (lpart labels ++ (f ++ (onionSuf ++ rest)))
      = (httpsPre ++ (lpart labels ++ (f ++ onionSuf))) ++ rest := by
    simp [List.append_assoc]
  show some ((httpsPre ++ (lpart labels ++ (f ++ (onionSuf ++ rest)))).take
      ((httpsPre ++ (lpart labels ++ (f ++ (onionSuf ++ rest)))).length - rest.length), rest)
    = some (httpsPre ++ (lpart labels ++ (f ++ onionSuf)), rest)
  rw [hMrest, List.length_append, Nat.add_sub_cancel, List.take_left]

theorem tryAt_not_h (n : Nat) (c : Char) (cs : Str) (hc : ¬ lowerC c = 'h') :
    tryAt (HTTPS_ONION_RE n) (c :: cs) = none := by
  have hfail : reMatch (HTTPS_ONION_RE n) (c :: cs) (fun r => some r) = none := by
    show reMatch (.cls (ciEq 'h')) (c :: cs)
        (fun r => reMatch (litCI ("ttps://".toList)) r
          (fun r => reMatch (hostRE n) r (fun r => some r))) = none
    simp only [reMatch]
    rw [if_neg (by simp [ciEq, lowerC]; intro h; exact absurd (by simpa using h) hc)]
  unfold tryAt
  rw [hfail]

theorem scanSub_copy :
    ∀ (pre : Str) (tail : Str) (fl : Nat),
      (∀ c ∈ pre, ¬ lowerC c = 'h') → (pre ++ tail).length ≤ fl →
      scanSub HTTPS_ONION_RE downgradeRepl fl (pre ++ tail)
        = pre ++ scanSub HTTPS_ONION_RE downgradeRepl (fl - pre.length) tail := by
  intro pre
  induction pre with
  | nil =>
    intro tail fl _ _
    simp
  | cons c pre2 ih =>
    intro tail fl hpre hfl
    cases fl with
    | zero => simp at hfl
    | succ fl =>
      show (match tryAt (HTTPS_ONION_RE ((pre2 ++ tail).length + 2)) (c :: (pre2 ++ tail)) with
            | none => c :: scanSub HTTPS_ONION_RE downgradeRepl fl (pre2 ++ tail)
            | some (m, rest) =>
              if m = [] then downgradeRepl [] ++ c :: scanSub HTTPS_ONION_RE downgradeRepl fl (pre2 ++ tail)
              else downgradeRepl m ++ scanSub HTTPS_ONION_RE downgradeRepl fl rest)
          = (c :: pre2) ++ scanSub HTTPS_ONION_RE downgradeRepl (fl + 1 - (c :: pre2).length) tail
      rw [tryAt_not_h _ c _ (hpre c (List.mem_cons_self _ _))]
      have hfl2 : (pre2 ++ tail).length ≤ fl := by
        simp at hfl ⊢
        omega
      rw [ih tail fl (fun d hd => hpre d (List.mem_cons_of_mem _ hd)) hfl2]
      have hsub : fl + 1 - (c :: pre2).length = fl - pre2.length := by
        simp
      rw [hsub]
      rfl

theorem downgradeRepl_occ (labels : List Str) (f : Str) :
    downgradeRepl (httpsPre ++ (lpart labels ++ (f ++ onionSuf)))
      = httpPre ++ (lpart labels ++ (f ++ onionSuf)) := by
  unfold downgradeRepl
  rw [show (8 : Nat) = httpsPre.length from rfl, List.drop_left]

theorem scanSub_occurrence (labels : List Str) (f rest : Str)
    (hlab : labelsOk labels) (hf : finalOk f) (hrest : delim rest) (fl : Nat) :
    scanSub HTTPS_ONION_RE downgradeRepl (fl + 1)
      (httpsPre ++ (lpart labels ++ (f ++ (onionSuf ++ rest))))
    = (httpPre ++ (lpart labels ++ (f ++ onionSuf)))
      ++ scanSub HTTPS_ONION_RE downgradeRepl fl rest := by
  have hX : httpsPre ++ (lpart labels ++ (f ++ (onionSuf ++ rest)))
      = 'h' :: (['t', 't', 'p', 's', ':', '/', '/'] ++ (lpart labels ++ (f ++ (onionSuf ++ rest)))) := rfl
  set X := lpart labels ++ (f ++ (onionSuf ++ rest)) with hXdef
  set n : Nat := (['t', 't', 'p', 's', ':', '/', '/'] ++ X).length + 2 with hndef
  have hXlen : X.length = (lpart labels).length + (f.length + (6 + rest.length)) := by
    rw [hXdef]
    simp [onionSuf]
    omega
  have hnlen : n = 7 + X.length + 2 := by
    rw [hndef]
    simp
    omega
  rw [hX]
  show (match tryAt (HTTPS_ONION_RE n) ('h' :: (['t', 't', 'p', 's', ':', '/', '/'] ++ X)) with
        | none => 'h' :: scanSub HTTPS_ONION_RE downgradeRepl fl (['t', 't', 'p', 's', ':', '/', '/'] ++ X)
        | some (m, r2) =>
          if m = [] then downgradeRepl [] ++ 'h' :: scanSub HTTPS_ONION_RE downgradeRepl fl (['t', 't', 'p', 's', ':', '/', '/'] ++ X)
          else downgradeRepl m ++ scanSub HTTPS_ONION_RE downgradeRepl fl r2)
      = (httpPre ++ (lpart labels ++ (f ++ onionSuf)))
        ++ scanSub HTTPS_ONION_RE downgradeRepl fl rest
  have hht : ('h' :: (['t', 't', 'p', 's', ':', '/', '/'] ++ X)) = httpsPre ++ X := rfl
  rw [hht, hXdef]
  have htry := tryAt_https n labels f rest hlab
    (by
      intro l hl
      have h1 := lpart_mem_le labels l hl
      omega)
    (by
      have h1 := labels_len_le labels
      omega)
    hf (by omega) (by omega) hrest
  rw [htry]
  show (if (httpsPre ++ (lpart labels ++ (f ++ onionSuf)) : Str) = []
        then downgradeRepl [] ++ 'h' :: scanSub HTTPS_ONION_RE downgradeRepl fl (['t', 't', 'p', 's', ':', '/', '/'] ++ X)
        else downgradeRepl (httpsPre ++ (lpart labels ++ (f ++ onionSuf)))
          ++ scanSub HTTPS_ONION_RE downgradeRepl fl rest)
      = (httpPre ++ (lpart labels ++ (f ++ onionSuf)))
        ++ scanSub HTTPS_ONION_RE downgradeRepl fl rest
  rw [if_neg (by simp [httpsPre]), downgradeRepl_occ]

theorem downgrade_occurrence (pre : Str) (labels : List Str) (f rest : Str)
    (hpre : ∀ c ∈ pre, ¬ lowerC c = 'h')
    (hlab : labelsOk labels) (hf : finalOk f) (hrest : delim rest) :
    downgrade_https_onion (pre ++ httpsPre ++ onionHost labels f ++ rest)
      = pre ++ httpPre ++ onionHost labels f ++ downgrade_https_onion rest := by
  have hbody : pre ++ httpsPre ++ onionHost labels f ++ rest
      = pre ++ (httpsPre ++ (lpart labels ++ (f ++ (onionSuf ++ rest)))) := by
    simp [onionHost, List.append_assoc]
  show reSub HTTPS_ONION_RE downgradeRepl (pre ++ httpsPre ++ onionHost labels f ++ rest)
      = pre ++ httpPre ++ onionHost labels f ++ downgrade_https_onion rest
  unfold reSub
  rw [hbody]
  rw [scanSub_copy pre (httpsPre ++ (lpart labels ++ (f ++ (onionSuf ++ rest))))
      ((pre ++ (httpsPre ++ (lpart labels ++ (f ++ (onionSuf ++ rest))))).length + 1)
      hpre (by omega)]
  have hfuel : (pre ++ (httpsPre ++ (lpart labels ++ (f ++ (onionSuf ++ rest))))).length + 1 - pre.length
      = (httpsPre ++ (lpart labels ++ (f ++ (onionSuf ++ rest)))).length + 1 := by
    simp only [List.length_append]
    omega
  rw [hfuel]
  rw [scanSub_occurrence labels f rest hlab hf hrest _]
  have hrfuel : scanSub HTTPS_ONION_RE downgradeRepl
      (httpsPre ++ (lpart labels ++ (f ++ (onionSuf ++ rest)))).length rest
      = scanSub HTTPS_ONION_RE downgradeRepl (rest.length + 1) rest := by
    refine scanSub_fuel HTTPS_ONION_RE downgradeRepl _ _ rest ?_ (by omega)
    simp only [List.length_append]
    omega
  rw [hrfuel]
  show pre ++ ((httpPre ++ (lpart labels ++ (f ++ onionSuf)))
      ++ reSub HTTPS_ONION_RE downgradeRepl rest)
      = pre ++ httpPre ++ onionHost labels f ++ downgrade_https_onion rest
  show pre ++ ((httpPre ++ (lpart labels ++ (f ++ onionSuf)))
      ++ downgrade_https_onion rest)
      = pre ++ httpPre ++ onionHost labels f ++ downgrade_https_onion rest
  simp [onionHost, List.append_assoc]

/-- The downgrade scan copies any text containing no `h` (in either
case) unchanged: no match can start anywhere in it. -/
theorem downgrade_skips_h_free : ∀ (f : Nat) (t : Str),
    (∀ c ∈ t, lowerC c ≠ 'h') → scanSub HTTPS_ONION_RE downgradeRepl f t = t := by
  intro f
  induction f with
  | zero =>
    intro t h
    rfl
  | succ f ih =>
    intro t h
    cases t with
    | nil => rfl
    | cons c cs =>
      have hc : lowerC c ≠ 'h' := h c (List.mem_cons_self _ _)
      have hmatch : tryAt (HTTPS_ONION_RE (cs.length + 2)) (c :: cs) = none := by
        unfold tryAt
        have hnone : reMatch (HTTPS_ONION_RE (cs.length + 2)) (c :: cs) (fun r => some r)
            = none := by
          simp [HTTPS_ONION_RE, litCI, reMatch, ciEq, (show lowerC 'h' = 'h' from rfl), hc]
        rw [hnone]
      unfold scanSub
      rw [hmatch]
      exact congrArg (c :: ·) (ih cs (fun d hd => h d (List.mem_cons_of_mem _ hd)))

set_option maxRecDepth 4000 in
/-- C7: `_downgrade_https_onion` replaces occurrences of `https://<host>`
for hosts matching the compiled pattern -- optional non-empty labels of
`[a-z0-9-]` characters each followed by a dot, then a final label of 16
to 56 alphanumerics, then `.onion` -- and touches nothing else: for
every body consisting of text free of `h`/`H` (so no match can begin in
it), such an occurrence, and a following delimiter that cannot extend
the host, the output is the preceding text verbatim, `http://` in place
of `https://`, the host verbatim, and the transform applied recursively
to the remainder; text containing no `h` at all is returned unchanged;
and a body holding a host with a 56-character final label is downgraded
in place. -/
theorem downgrade_replaces_pattern_hosts :
    (∀ (pre : Str) (labels : List Str) (f rest : Str),
        (∀ c ∈ pre, lowerC c ≠ 'h') → labelsOk labels → finalOk f → delim rest →
        downgrade_https_onion (pre ++ httpsPre ++ onionHost labels f ++ rest)
          = pre ++ httpPre ++ onionHost labels f ++ downgrade_https_onion rest)
    ∧ (∀ t : Str, (∀ c ∈ t, lowerC c ≠ 'h') → downgrade_https_onion t = t)
    ∧ downgrade_https_onion
        ("<a href=\"https://aaaaaaaaaaaaaaaaaaaaaaaaaaaaaaaaaaaaaaaaaaaaaaaaaaaaaaaa.onion/x\">ok</a>".toList)
      = ("<a href=\"http://aaaaaaaaaaaaaaaaaaaaaaaaaaaaaaaaaaaaaaaaaaaaaaaaaaaaaaaa.onion/x\">ok</a>".toList) := by
  refine ⟨?_, ?_, ?_⟩
  · intro pre labels f rest hpre hlab hf hrest
    exact downgrade_occurrence pre labels f rest hpre hlab hf hrest
  · intro t h
    unfold downgrade_https_onion reSub
    exact downgrade_skips_h_free (t.length + 1) t h
  · decide

/-- Witness for `downgrade_replaces_pattern_hosts`: a concrete body with
an `h`-free prefix, one dotted label, a 16-character final label and a
delimited tail is rewritten in place, and a match-free body is kept. -/
theorem downgrade_replaces_pattern_hosts_witness :
    ((∀ c ∈ ("<p>".toList : Str), lowerC c ≠ 'h')
      ∧ labelsOk [("sub-x".toList : Str)]
      ∧ finalOk (List.replicate 16 'a')
      ∧ delim (" tail".toList))
    ∧ downgrade_https_onion
        ("<p>".toList ++ httpsPre ++ onionHost [("sub-x".toList)] (List.replicate 16 'a') ++ " tail".toList)
      = "<p>".toList ++ httpPre ++ onionHost [("sub-x".toList)] (List.replicate 16 'a')
        ++ downgrade_https_onion (" tail".toList)
    ∧ downgrade_https_onion ("xyz body".toList) = ("xyz body".toList) :=
  ⟨⟨by decide, by decide, by decide, by decide⟩,
   downgrade_replaces_pattern_hosts.1 ("<p>".toList) [("sub-x".toList)]
     (List.replicate 16 'a') (" tail".toList) (by decide) (by decide) (by decide) (by decide),
   downgrade_replaces_pattern_hosts.2.1 ("xyz body".toList) (by decide)⟩
end OnionProxy
